import Mathlib

/-!
# Verification of the AISemblies DAG core (`src/aisemblies/agents.py`)

This file is a shallow embedding of the DAG-orchestration core of the
repository: the `DataTransit` result store, the `LLMAgent` / `FunctionAgent`
implementations (with their external effects — the OpenAI client, tool
invocation and dynamic imports — abstracted as oracle parameters), and the
`DAGAssembly` registry / cycle validator / scheduler, together with the
JSON persistence layer (`export_to_json` / `from_json`, with the JSON
string codec modelled as the identity on the structured document).

Python values flowing between agents are modelled by the inductive `PyVal`,
whose `PyVal.none` constructor plays the role of Python's `None` (both the
"absent seed" marker and a storable value).  Python dicts keyed by agent id
are modelled either as association lists (where iteration order matters)
or as functions with a default value (where only lookup matters); Python
sets of agent ids (`graph`, `parents_map` entries) are modelled as
duplicate-free lists in insertion order, standing for one fixed iteration
order of the set.

The `asyncio` scheduler is cooperative and single-threaded; it is embedded
as a deterministic event-loop model (`loopStep` / `runEventLoop`).  The
ready queue holds, in FIFO order (`call_soon` appends), three kinds of
callbacks: the first step of a spawned task, the done-callback that
`asyncio.gather` attached to an initially spawned entry task, and the
resumption of the suspended `run()` coroutine once the gather future
resolves.  Crucially, `run()` gathers only the snapshot of entry tasks
taken before any task executes: tasks spawned later for downstream agents
are registered in the `tasks` dict but never awaited by `run()` itself, so
the `run()` call can resume and return (the `runResume` item) while
spawned tasks are still queued, and an exception raised inside a
transitively spawned task stays inside that task object — nothing ever
retrieves it.  Each task body is modelled as atomic, which is exact for
agents that do not yield control mid-`run`: a synchronous function agent
performs no awaits of its own, and a spawned task's `await` of its parent
tasks returns without yielding because every parent task has already
completed by the time the task is first stepped (a task is spawned only
when its live predecessor countdown reaches zero, inside the last parent's
step).  The loop is fuelled; `4·#agents + 4` bounds the number of items
the loop can ever process (each agent's countdown reaches zero at most
once, so there are at most `#agents` task steps, at most as many gather
callbacks, and one resume).
-/

/-- Python runtime values exchanged between agents (the claims only ever
need values to be distinguishable and to include `None`).  `PyVal.none`
is Python's `None`. -/
inductive PyVal where
  | none : PyVal
  | bool (b : Bool) : PyVal
  | int (n : Int) : PyVal
  | str (s : String) : PyVal
deriving DecidableEq

/-- The result store (`DataTransit` in the source): per-agent recorded
inputs, intermediary values and outputs.  `outputs` maps an agent id to
`Option PyVal`: `Option.none` models "key absent from the dict". -/
structure DataTransit where
  inputs : String → List PyVal
  intermediary : String → List PyVal
  outputs : String → Option PyVal

/-- A fresh `DataTransit()` — all maps empty. -/
def DataTransit.empty : DataTransit :=
  ⟨fun _ => [], fun _ => [], fun _ => Option.none⟩

/-- `DataTransit.record_input`: append to the agent's input list. -/
def DataTransit.record_input (st : DataTransit) (aid : String) (d : PyVal) : DataTransit :=
  { st with inputs := fun x => if x = aid then st.inputs aid ++ [d] else st.inputs x }

/-- `DataTransit.record_output`: set the agent's single output slot. -/
def DataTransit.record_output (st : DataTransit) (aid : String) (d : PyVal) : DataTransit :=
  { st with outputs := fun x => if x = aid then some d else st.outputs x }

/-- `DataTransit.record_intermediary`: append to the agent's intermediary list. -/
def DataTransit.record_intermediary (st : DataTransit) (aid : String) (d : PyVal) : DataTransit :=
  { st with intermediary := fun x => if x = aid then st.intermediary aid ++ [d] else st.intermediary x }

/-- `self.data_transit.outputs.get(agent_id)`: Python `dict.get` returns
`None` both when the key is absent and when the stored value is `None`. -/
def DataTransit.outputsGet (st : DataTransit) (aid : String) : PyVal :=
  (st.outputs aid).getD PyVal.none

/-- `FunctionToolConfig`: enough information to reconstruct a tool. -/
structure FunctionToolConfig where
  import_path : String
  func_name : String
  description : Option String
deriving DecidableEq

/-- `LLMConfig` (a pydantic model; field defaults as in the source). -/
structure LLMConfig where
  model_name : String := "gpt-4"
  system_prompt : Option String := Option.none
  user_prompt : Option String := Option.none
  api_key_alias : Option String := Option.none
  max_tool_call_iters : Nat := 3
  tool_configs : List FunctionToolConfig := []
deriving DecidableEq

instance : Inhabited LLMConfig := ⟨{}⟩

/-- The observable behaviour of one whole `LLMAgent._run_llm_with_tools`
interaction (client calls, tool invocations): given the agent's assembled
input data it either raises, or produces the sequence of values the agent
records as intermediaries (one entry per `record_intermediary` call, in
order) together with the final response to be recorded as output.  This is
the oracle abstracting the external OpenAI client. -/
def LLMOracle : Type :=
  List PyVal → Except String (List PyVal × PyVal)

/-- `FunctionConfig`: the pydantic model; `func` is the callable (wrapped
in `Option`, as in the source where it may be `None`).  The callable is
modelled as a pure function from the input list to a result or a raised
exception. -/
structure FunctionConfig where
  import_path : Option String := Option.none
  func_name : Option String := Option.none
  docstring : Option String := Option.none
  signature_str : Option String := Option.none
  return_type : Option String := Option.none
  func : Option (List PyVal → Except String PyVal) := Option.none

instance : Inhabited FunctionConfig := ⟨{}⟩

/-- An agent of the assembly: either an `LLMAgent` (its client / tool loop
abstracted by an `LLMOracle`) or a `FunctionAgent`. -/
inductive Agent where
  | llmAgent (config : LLMConfig) (oracle : LLMOracle) : Agent
  | functionAgent (config : FunctionConfig) : Agent

/-- `type(agent).__name__`, as used by `export_to_json`. -/
def Agent.typeName : Agent → String
  | .llmAgent _ _ => "LLMAgent"
  | .functionAgent _ => "FunctionAgent"

/-- The body of `Agent.run` for both implementations, as a store
transformer returning the (possibly raised) result.

`FunctionAgent.run`: record every input item, then call `config.func`
(raising if it is `None`), record the result as the agent's output and
return it.

`LLMAgent.run`: record every input item, then perform the LLM/tool
interaction (the oracle); on success record each intermediary value, then
record the final response as the agent's output and return it.  Message
templating touches no store state and is folded into the oracle. -/
def Agent.runImpl (a : Agent) (aid : String) (st : DataTransit) (input_data : List PyVal) :
    DataTransit × Except String PyVal :=
  match a with
  | .functionAgent cfg =>
      let st1 := input_data.foldl (fun s item => s.record_input aid item) st
      match cfg.func with
      | Option.none => (st1, .error ("FunctionAgent " ++ aid ++ ": config.func is None."))
      | some fn =>
          match fn input_data with
          | .error e => (st1, .error e)
          | .ok result => (st1.record_output aid result, .ok result)
  | .llmAgent _cfg oracle =>
      let st1 := input_data.foldl (fun s item => s.record_input aid item) st
      match oracle input_data with
      | .error e => (st1, .error e)
      | .ok (inters, final) =>
          let st2 := inters.foldl (fun s item => s.record_intermediary aid item) st1
          (st2.record_output aid final, .ok final)

/-- An agent whose `run` never raises (for any store and input list). -/
def Agent.alwaysOk (a : Agent) : Prop :=
  ∀ aid st input_data, ∃ v, (Agent.runImpl a aid st input_data).2 = .ok v

/-- An agent whose `run` always raises the exception `e`. -/
def Agent.alwaysFails (a : Agent) (e : String) : Prop :=
  ∀ aid st input_data, (Agent.runImpl a aid st input_data).2 = .error e

/-- The `DAGAssembly` object state.  `agents` is the id → agent dict in
insertion order; `graph` and `parents_map` are the successor and
predecessor sets (insertion-ordered, duplicate-free lists); `in_degree`
is the predecessor-count dict (total function, defaulting to 0 like the
source's `defaultdict(int)`). -/
structure DAGAssembly where
  agents : List (String × Agent)
  graph : String → List String
  in_degree : String → Int
  parents_map : String → List String
  data_transit : DataTransit

/-- `DAGAssembly.__init__`. -/
def DAGAssembly.empty : DAGAssembly :=
  ⟨[], fun _ => [], fun _ => 0, fun _ => [], DataTransit.empty⟩

/-- The registered agent ids, in registration order (the iteration order
of `self.agents` and of `self.in_degree`, whose key set it equals). -/
def DAGAssembly.ids (asm : DAGAssembly) : List String :=
  asm.agents.map Prod.fst

/-- `add_agent`: fail on a duplicate id, otherwise register the agent
(the source also ensures `in_degree[agent_id] = 0`, a no-op in the
total-function model). -/
def DAGAssembly.add_agent (asm : DAGAssembly) (aid : String) (ag : Agent) :
    Except String DAGAssembly :=
  if (List.lookup aid asm.agents).isSome then
    .error ("Agent ID " ++ aid ++ " already exists.")
  else
    .ok { asm with agents := asm.agents ++ [(aid, ag)] }

/-- One step of the decrement loop shared by the cycle validator and the
scheduler: for each successor in iteration order, decrement its count; the
second component collects, in order, the successors whose count reached
exactly 0 at their decrement (the validator enqueues these, the scheduler
spawns them). -/
def decSuccs (indeg : String → Int) : List String → (String → Int) × List String
  | [] => (indeg, [])
  | s :: rest =>
      let d := indeg s - 1
      let indeg' : String → Int := fun x => if x = s then d else indeg x
      let p := decSuccs indeg' rest
      (p.1, if d = 0 then s :: p.2 else p.2)

/-- The Kahn worklist of `_validate_no_cycles`: dequeue a node, count it
as visited, decrement its successors' snapshot counts and enqueue those
reaching 0.  The Python `while queue:` loop performs at most `#agents`
iterations (each agent's count reaches 0 at most once), so it is run here
with that much fuel. -/
def kahnLoop (graph : String → List String) :
    Nat → List String → (String → Int) → Nat → Nat
  | 0, _, _, visited => visited
  | _ + 1, [], _, visited => visited
  | fuel + 1, node :: rest, indeg, visited =>
      let p := decSuccs indeg (graph node)
      kahnLoop graph fuel (rest ++ p.2) p.1 (visited + 1)

/-- The message of the `ValueError` the source raises on a cycle (the
spec's `CycleDetected`). -/
def cycleMsg : String :=
  "Cycle detected in the agent assembly. The graph is not a valid DAG."

/-- The agents whose predecessor count is currently 0, in id-iteration
order: the validator's initial queue, and `run()`'s entry set. -/
def DAGAssembly.entrySet (asm : DAGAssembly) : List String :=
  asm.ids.filter (fun a => asm.in_degree a == 0)

/-- `_validate_no_cycles`: Kahn's algorithm on a snapshot of the counts;
`some cycleMsg` models the raised `ValueError`. -/
def DAGAssembly.validate_no_cycles (asm : DAGAssembly) : Option String :=
  let visited := kahnLoop asm.graph asm.agents.length asm.entrySet asm.in_degree 0
  if visited < asm.agents.length then some cycleMsg else Option.none

/-- `add_connection`: unknown-agent checks, duplicate-edge no-op,
otherwise commit the edge to all three structures and only then run the
cycle validator.  The returned pair is (object state after the call,
raised exception if any): on `CycleDetected` the mutated state — edge
included — is what the caller's object now holds. -/
def insertEdge (asm : DAGAssembly) (f t : String) : DAGAssembly :=
  { asm with
    graph := fun x => if x = f then asm.graph f ++ [t] else asm.graph x,
    parents_map := fun x => if x = t then asm.parents_map t ++ [f] else asm.parents_map x,
    in_degree := fun x => if x = t then asm.in_degree t + 1 else asm.in_degree x }

def DAGAssembly.add_connection (asm : DAGAssembly) (f t : String) :
    DAGAssembly × Option String :=
  if (List.lookup f asm.agents).isNone then
    (asm, some ("Unknown agent: " ++ f))
  else if (List.lookup t asm.agents).isNone then
    (asm, some ("Unknown agent: " ++ t))
  else if t ∈ asm.graph f then
    (asm, Option.none)
  else
    (insertEdge asm f t, (insertEdge asm f t).validate_no_cycles)

/-- Python `entry_inputs.get(agent_id)` on the seed dict: `None` when
absent. -/
def dictGet (m : List (String × PyVal)) (k : String) : PyVal :=
  (List.lookup k m).getD PyVal.none

/-- Input assembly at the start of `_run_agent_when_ready`'s body: for
each predecessor in iteration order fetch its output with `dict.get` and
append it unless it `is None`; then append `user_data` unless it
`is None`. -/
def assembleInputs (parents : String → List String) (st : DataTransit)
    (aid : String) (user_data : PyVal) : List PyVal :=
  let l1 := (parents aid).foldl
    (fun acc p =>
      if st.outputsGet p = PyVal.none then acc else acc ++ [st.outputsGet p]) []
  if user_data = PyVal.none then l1 else l1 ++ [user_data]

/-- The per-task body: look the agent up (`self.agents[agent_id]`,
`KeyError` if absent), assemble its inputs and call `agent.run`.  The
scheduler performs no store writes of its own here — the returned store
is exactly the one `agent.run` produced. -/
def runAgentStep (asm : DAGAssembly) (aid : String) (user_data : PyVal)
    (st : DataTransit) : DataTransit × Except String PyVal :=
  match List.lookup aid asm.agents with
  | Option.none => (st, .error ("KeyError: " ++ aid))
  | some ag => Agent.runImpl ag aid st (assembleInputs asm.parents_map st aid user_data)

/-- A callback sitting in the event loop's ready queue.
`taskStep aid ud` is the (single, atomic) step of the task
`create_task(_run_agent_when_ready(aid, ud))`; `gatherCb aid` is the
done-callback `asyncio.gather` attached to the entry task of `aid` (only
entry tasks get one — they are the only tasks ever awaited); `runResume`
is the resumption of the `run()` coroutine after the gather future
resolved: the `run()` call returns at that point. -/
inductive LoopItem where
  | taskStep (aid : String) (user_data : PyVal) : LoopItem
  | gatherCb (aid : String) : LoopItem
  | runResume : LoopItem
deriving DecidableEq

/-- The event-loop state during (and after) a `run()` call.
`queue` is the FIFO ready queue; `indeg` and `store` are the mutable
`self.in_degree` / `self.data_transit`; `executed` lists the agents whose
`run` has been invoked so far, in order; `taskErrors` are the exceptions
stored in finished task objects (for an entry task the gather callback
retrieves the exception; for any other task nothing ever does);
`pendingEntry` are the entry tasks the gather future still waits for;
`resolved` / `gatherVerdict` describe the gather future (`some e` when it
resolved by re-raising a child exception `e`); `returnInfo` is set the
moment the `run()` call returns: the agents executed by then, and the
exception `run()` re-raises (`Option.none` for a normal return). -/
structure LoopState where
  queue : List LoopItem
  indeg : String → Int
  store : DataTransit
  executed : List String
  taskErrors : List (String × String)
  pendingEntry : List String
  resolved : Bool
  gatherVerdict : Option String
  returnInfo : Option (List String × Option String)

/-- The agent ids of the task-step items of a queue, in order. -/
def taskIds (q : List LoopItem) : List String :=
  q.filterMap (fun i => match i with
    | .taskStep aid _ => some aid
    | _ => Option.none)

/-- The number of gather callbacks in a queue. -/
def gcbCount (q : List LoopItem) : Nat :=
  (q.filter (fun i => match i with
    | .gatherCb _ => true
    | _ => false)).length

/-- The number of `run()`-resumption items in a queue. -/
def resumeCount (q : List LoopItem) : Nat :=
  (q.filter (fun i => match i with
    | .runResume => true
    | _ => false)).length

/-- One iteration of the event loop: pop the head callback and run it.

* `taskStep aid ud` — the body of `_run_agent_when_ready`.  Awaiting the
  parent tasks returns without yielding (every parent task has already
  completed — see the module comment), so the step runs the agent at
  once.  On success it decrements each successor's live count and
  `create_task`s (appends a `taskStep` for) every successor reaching 0
  with `user_data=None`; on an exception the successor loop is skipped
  and the exception is stored in the task object.  Either way, if the
  task is one of the gathered entry tasks its completion schedules the
  gather done-callback.
* `gatherCb aid` — `asyncio.gather`'s child callback with
  `return_exceptions=False`: if the future already resolved there is
  nothing to do; if the child holds an exception the gather future
  resolves with it immediately; otherwise the child is checked off and
  the future resolves normally once no child remains.  Resolving wakes
  the `run()` coroutine (appends `runResume`).
* `runResume` — `run()` returns here: record the executed-so-far list
  and the gather verdict.  Items still queued after this point are the
  tasks `run()` left behind: they run only if the caller keeps the
  event loop alive. -/
def loopStep (asm : DAGAssembly) (entries : List String) (s : LoopState) : LoopState :=
  match s.queue with
  | [] => s
  | .taskStep aid ud :: rest =>
      let r := runAgentStep asm aid ud s.store
      match r.2 with
      | .error e =>
          { s with
            queue := rest ++ (if aid ∈ entries then [LoopItem.gatherCb aid] else []),
            store := r.1,
            executed := s.executed ++ [aid],
            taskErrors := s.taskErrors ++ [(aid, e)] }
      | .ok _ =>
          let p := decSuccs s.indeg (asm.graph aid)
          { s with
            queue := rest ++ p.2.map (fun x => LoopItem.taskStep x PyVal.none)
              ++ (if aid ∈ entries then [LoopItem.gatherCb aid] else []),
            indeg := p.1,
            store := r.1,
            executed := s.executed ++ [aid] }
  | .gatherCb aid :: rest =>
      if s.resolved then
        { s with queue := rest, pendingEntry := s.pendingEntry.erase aid }
      else
        match List.lookup aid s.taskErrors with
        | some e =>
            { s with queue := rest ++ [LoopItem.runResume],
                     pendingEntry := s.pendingEntry.erase aid,
                     resolved := true, gatherVerdict := some e }
        | Option.none =>
            let pending := s.pendingEntry.erase aid
            if pending.isEmpty then
              { s with queue := rest ++ [LoopItem.runResume], pendingEntry := pending,
                       resolved := true, gatherVerdict := Option.none }
            else
              { s with queue := rest, pendingEntry := pending }
  | .runResume :: rest =>
      { s with queue := rest, returnInfo := some (s.executed, s.gatherVerdict) }

/-- Drive the event loop until its ready queue is empty (or fuel runs
out; the chosen fuel never does). -/
def runEventLoop (asm : DAGAssembly) (entries : List String) :
    Nat → LoopState → LoopState
  | 0, s => s
  | fuel + 1, s =>
      if s.queue.isEmpty then s else runEventLoop asm entries fuel (loopStep asm entries s)

/-- `DAGAssembly.run(entry_inputs)` together with the ensuing event-loop
activity: `run()` spawns a task for every agent whose count is 0 (in id
order), seeding each with `entry_inputs.get(agent_id)`, then suspends on
`asyncio.gather` over exactly those tasks.  The returned `LoopState` is
the state after the loop has processed every queued item; the facts about
the `run()` call itself (when it returned, what it raised) are the
snapshots in `returnInfo`.  With no entry task, `gather()` of nothing
completes at once and `run()` returns without yielding. -/
def DAGAssembly.runCall (asm : DAGAssembly) (entry_inputs : List (String × PyVal)) :
    LoopState :=
  let entries := asm.entrySet
  runEventLoop asm entries (4 * asm.ids.length + 4)
    { queue := entries.map (fun a => LoopItem.taskStep a (dictGet entry_inputs a)),
      indeg := asm.in_degree,
      store := asm.data_transit,
      executed := [],
      taskErrors := [],
      pendingEntry := entries,
      resolved := false,
      gatherVerdict := Option.none,
      returnInfo := if entries.isEmpty then some ([], Option.none) else Option.none }

/-- The assembly object (its mutated `self.in_degree` and
`self.data_transit`) once the event loop has processed every task the run
spawned — i.e. after a run in which every spawned task got to complete.
The `run()` call itself may return earlier than that (see C1): this is
the eventual object state, reached only if the caller keeps the event
loop alive. -/
def DAGAssembly.afterCompleteRun (asm : DAGAssembly)
    (entry_inputs : List (String × PyVal)) : DAGAssembly :=
  { asm with in_degree := (asm.runCall entry_inputs).indeg,
             data_transit := (asm.runCall entry_inputs).store }

/-- Termination measure for the event loop: a task step retires one
never-executed agent (and enqueues at most one gather callback), a gather
callback enqueues at most one resume, a resume enqueues nothing. -/
def loopMeasure (n : Nat) (s : LoopState) : Nat :=
  4 * (n - s.executed.length) + 2 * gcbCount s.queue + resumeCount s.queue

/-! ## Persistence layer (`export_to_json` / `from_json`)

The JSON text codec (`json.dumps` / `json.loads`) is modelled as the
identity on the structured document, so the two functions below work
directly on `AssemblyDoc`. -/

/-- The `function_config` sub-document written for a `FunctionAgent`
(everything except the callable). -/
structure FunctionConfigDoc where
  import_path : Option String := Option.none
  func_name : Option String := Option.none
  docstring : Option String := Option.none
  signature_str : Option String := Option.none
  return_type : Option String := Option.none
deriving DecidableEq

instance : Inhabited FunctionConfigDoc := ⟨{}⟩

/-- One entry of the exported `agents` array. -/
structure AgentDoc where
  agent_id : String
  type_tag : String
  is_entry_point : Bool
  llm_config : Option LLMConfig := Option.none
  system_prompt_fields : Option (List String) := Option.none
  user_prompt_fields : Option (List String) := Option.none
  function_config : Option FunctionConfigDoc := Option.none

/-- The exported document: the `agents` array and the `connections`
array of `(from, to)` pairs. -/
structure AssemblyDoc where
  agents : List AgentDoc
  connections : List (String × String)

/-- The document entry `export_to_json` writes for one agent.
`promptFields` abstracts the regex helper `_parse_prompt_fields`;
`inspectFn` abstracts `_get_function_details` (the `inspect`-based
backfill of a `FunctionConfig` whose import path or name is missing —
the source also caches these details back onto the config object, which
no claim observes). -/
def agentDocOf (asm : DAGAssembly) (promptFields : Option String → Option (List String))
    (inspectFn : (List PyVal → Except String PyVal) → FunctionConfigDoc)
    (aid : String) (ag : Agent) : AgentDoc :=
  let is_entry : Bool := asm.in_degree aid == 0
  match ag with
  | .llmAgent cfg _ =>
      { agent_id := aid, type_tag := "LLMAgent", is_entry_point := is_entry,
        llm_config := some cfg,
        system_prompt_fields := promptFields cfg.system_prompt,
        user_prompt_fields := promptFields cfg.user_prompt }
  | .functionAgent fc =>
      let doc : FunctionConfigDoc :=
        match fc.func with
        | some f =>
            if fc.import_path.isNone ∨ fc.func_name.isNone then inspectFn f
            else ⟨fc.import_path, fc.func_name, fc.docstring, fc.signature_str, fc.return_type⟩
        | Option.none => ⟨fc.import_path, fc.func_name, fc.docstring, fc.signature_str, fc.return_type⟩
      { agent_id := aid, type_tag := "FunctionAgent", is_entry_point := is_entry,
        function_config := some doc }

/-- The `connections` array: every `(from, to)` pair of the successor
sets, enumerated per agent. -/
def connsOf (asm : DAGAssembly) : List (String × String) :=
  asm.agents.flatMap (fun p => (asm.graph p.1).map (fun t => (p.1, t)))

/-- `export_to_json`: one document entry per registered agent (in
registration order), then every edge `(from, to)` of the successor sets. -/
def DAGAssembly.export_to_json (asm : DAGAssembly)
    (promptFields : Option String → Option (List String))
    (inspectFn : (List PyVal → Except String PyVal) → FunctionConfigDoc) : AssemblyDoc :=
  { agents := asm.agents.map (fun p => agentDocOf asm promptFields inspectFn p.1 p.2),
    connections := connsOf asm }

/-- `_load_api_key`: the user map first, then the process environment
(modelled as a lookup oracle), else raise. -/
def load_api_key (keyAlias : String) (api_key_value_map : List (String × String))
    (envGet : String → Option String) : Except String String :=
  match List.lookup keyAlias api_key_value_map with
  | some v => .ok v
  | Option.none =>
      match envGet keyAlias with
      | some v => .ok v
      | Option.none => .error ("Could not find API key for alias " ++ keyAlias ++ ".")

/-- `FunctionAgent.__init__`: if `config.func` is not callable but an
importable path and name are given, resolve the callable.  `importFn`
abstracts `_import_function` (dynamic import), modelled as a total oracle
over the importable symbols. -/
def mkFunctionAgent (importFn : String → String → (List PyVal → Except String PyVal))
    (cfg : FunctionConfig) : Agent :=
  match cfg.func with
  | some _ => .functionAgent cfg
  | Option.none =>
      match cfg.import_path, cfg.func_name with
      | some ip, some fn => .functionAgent { cfg with func := some (importFn ip fn) }
      | _, _ => .functionAgent cfg

/-- The per-entry agent reconstruction inside `from_json`: dispatch on
the type tag, rebuild the config (pydantic round-trips the dumped model
to an equal model), resolve the API key and client for an `LLMAgent`
(`mkOracle` abstracts constructing the client — it receives the config
and the loaded key, `Option.none` when no alias was given), or rebuild a
`FunctionAgent` via its constructor. -/
def buildAgentFromDoc (api_key_value_map : List (String × String))
    (envGet : String → Option String)
    (importFn : String → String → (List PyVal → Except String PyVal))
    (mkOracle : LLMConfig → Option String → LLMOracle)
    (a : AgentDoc) : Except String Agent :=
  if a.type_tag = "LLMAgent" then
    let cfg := a.llm_config.getD {}
    match cfg.api_key_alias with
    | some keyAlias =>
        match load_api_key keyAlias api_key_value_map envGet with
        | .error e => .error e
        | .ok key => .ok (.llmAgent cfg (mkOracle cfg (some key)))
    | Option.none => .ok (.llmAgent cfg (mkOracle cfg Option.none))
  else if a.type_tag = "FunctionAgent" then
    let fcd := a.function_config.getD {}
    .ok (mkFunctionAgent importFn
      ⟨fcd.import_path, fcd.func_name, fcd.docstring, fcd.signature_str, fcd.return_type,
        Option.none⟩)
  else
    .error ("Unsupported agent type: " ++ a.type_tag)

/-- `from_json`: rebuild a fresh assembly using only the registration
API — `add_agent` for every document entry, then `add_connection` for
every edge (whose raised exceptions, including `CycleDetected`, abort
the whole call). -/
def DAGAssembly.from_json (doc : AssemblyDoc)
    (api_key_value_map : List (String × String))
    (envGet : String → Option String)
    (importFn : String → String → (List PyVal → Except String PyVal))
    (mkOracle : LLMConfig → Option String → LLMOracle) : Except String DAGAssembly :=
  (doc.agents.foldlM
    (fun acc a =>
      buildAgentFromDoc api_key_value_map envGet importFn mkOracle a >>= fun ag =>
        acc.add_agent a.agent_id ag)
    DAGAssembly.empty) >>= fun asm1 =>
  doc.connections.foldlM
    (fun acc c =>
      match acc.add_connection c.1 c.2 with
      | (_, some e) => .error e
      | (acc', Option.none) => .ok acc')
    asm1

/-! ## Structural invariants and acyclicity -/

/-- The mutual consistency of the `DAGAssembly` graph structures, as
maintained by `add_agent` / `add_connection`: duplicate-free ids and
edge sets, successor/predecessor sets that are converses of each other
and mention only registered agents, and predecessor counts equal to the
predecessor-set sizes. -/
structure Consistent (asm : DAGAssembly) : Prop where
  nodup_ids : asm.ids.Nodup
  nodup_succs : ∀ a, (asm.graph a).Nodup
  nodup_parents : ∀ a, (asm.parents_map a).Nodup
  edge_mem : ∀ a b, b ∈ asm.graph a → a ∈ asm.ids ∧ b ∈ asm.ids
  conv : ∀ a b, b ∈ asm.graph a ↔ a ∈ asm.parents_map b
  deg : ∀ a, asm.in_degree a = ((asm.parents_map a).length : Int)

/-- Acyclicity of the edge relation: a rank function under which every
edge strictly increases. -/
def Acyclic (asm : DAGAssembly) : Prop :=
  ∃ rank : String → Nat, ∀ a b, b ∈ asm.graph a → rank a < rank b

/-- The not-yet-processed predecessors of `a`. -/
def unprocessed (parents : String → List String) (processed : List String) (a : String) :
    List String :=
  (parents a).filter (fun p => decide (p ∉ processed))

/-- Invariant of the validator's worklist (`kahnLoop`) and of the
task-step dynamics of the scheduler's event loop (`loopStep`), over the
processed-so-far list, the pending queue of agent ids and the current
counts. -/
structure KahnInv (asm : DAGAssembly) (processed queue : List String) (indeg : String → Int) :
    Prop where
  sub_p : ∀ a ∈ processed, a ∈ asm.ids
  nd : (processed ++ queue).Nodup
  deg_cur : ∀ a, indeg a = ((unprocessed asm.parents_map processed a).length : Int)
  queue_iff : ∀ a, a ∈ queue ↔
    (a ∈ asm.ids ∧ a ∉ processed ∧ ∀ p ∈ asm.parents_map a, p ∈ processed)
  proc_closed : ∀ a ∈ processed, ∀ p ∈ asm.parents_map a, p ∈ processed

/-- Invariant of the event-loop state: the Kahn invariant over the agents
executed so far and the task steps still queued (gather callbacks and the
resume touch neither the counts nor the store), plus every executed
agent's recorded output. -/
structure LoopInv (asm : DAGAssembly) (s : LoopState) : Prop where
  kinv : KahnInv asm s.executed (taskIds s.queue) s.indeg
  stinv : ∀ a ∈ s.executed, (s.store.outputs a).isSome

/-! ## Reconstruction bookkeeping (used to verify `from_json ∘ export`) -/

/-- The successors of `f` among an edge list, in list order. -/
def edgesTo (es : List (String × String)) (f : String) : List String :=
  (es.filter (fun e => e.1 == f)).map Prod.snd

/-- The predecessors of `t` among an edge list, in list order. -/
def edgesFrom (es : List (String × String)) (t : String) : List String :=
  (es.filter (fun e => e.2 == t)).map Prod.fst

/-- State of the reconstruction after re-adding the edges `done`: the
agents are all registered and the three graph structures hold exactly
the edges of `done`. -/
structure ReconInv (asm : DAGAssembly) (done : List (String × String)) (s : DAGAssembly) :
    Prop where
  ids_eq : s.ids = asm.ids
  graph_eq : ∀ x, s.graph x = edgesTo done x
  parents_eq : ∀ x, s.parents_map x = edgesFrom done x
  indeg_eq : ∀ x, s.in_degree x = ((edgesFrom done x).length : Int)

/-! ## Concrete agents and assemblies used in the examples -/

/-- A `FunctionAgent` whose function ignores its inputs and returns `w`. -/
def constFnAgent (w : PyVal) : Agent :=
  .functionAgent { func := some (fun _ => .ok w) }

/-- A `FunctionAgent` whose function always raises `e`. -/
def failFnAgent (e : String) : Agent :=
  .functionAgent { func := some (fun _ => .error e) }

/-- Unwrap a registration step that is known to succeed. -/
def getOk (e : Except String DAGAssembly) : DAGAssembly :=
  match e with
  | .ok a => a
  | .error _ => DAGAssembly.empty

/-- Three registered agents `A`, `B`, `C` and no edges yet. -/
def asmABC0 : DAGAssembly :=
  getOk ((getOk ((getOk (DAGAssembly.empty.add_agent "A" (constFnAgent (PyVal.int 1)))).add_agent
    "B" (constFnAgent (PyVal.int 2)))).add_agent "C" (constFnAgent (PyVal.int 3)))

/-- After `add_connection("A", "B")`. -/
def asmAB : DAGAssembly := (asmABC0.add_connection "A" "B").1

/-- After `add_connection("B", "C")` as well. -/
def asmABBC : DAGAssembly := (asmAB.add_connection "B" "C").1

/-- Two agents: `A` returns 1, `B` always raises `"boom"`; edge `A → B`. -/
def asmFailBase : DAGAssembly :=
  getOk ((getOk (DAGAssembly.empty.add_agent "A" (constFnAgent (PyVal.int 1)))).add_agent
    "B" (failFnAgent "boom"))

def asmFail : DAGAssembly := (asmFailBase.add_connection "A" "B").1

/-- Four synchronous agents `A`, `B`, `C`, `D`, no edges yet. -/
def asmChain4Base : DAGAssembly :=
  getOk ((getOk ((getOk ((getOk (DAGAssembly.empty.add_agent "A"
    (constFnAgent (PyVal.int 1)))).add_agent "B" (constFnAgent (PyVal.int 2)))).add_agent
    "C" (constFnAgent (PyVal.int 3)))).add_agent "D" (constFnAgent (PyVal.int 4)))

/-- The chain `A → B → C → D` (the only entry agent is `A`). -/
def asmChain4 : DAGAssembly :=
  (((asmChain4Base.add_connection "A" "B").1.add_connection "B" "C").1.add_connection
    "C" "D").1

/-- Two agents: `A` returns `None`, `B` returns 2; edge `A → B` (for the
None-output example). -/
def asmNoneBase : DAGAssembly :=
  getOk ((getOk (DAGAssembly.empty.add_agent "A" (constFnAgent PyVal.none))).add_agent
    "B" (constFnAgent (PyVal.int 2)))

def asmNone : DAGAssembly := (asmNoneBase.add_connection "A" "B").1

/-- The config of a function agent returning the integer 5. -/
def fcReturnFive : FunctionConfig := { func := some (fun _ => .ok (PyVal.int 5)) }

/-! ## Basic plumbing lemmas -/

@[simp] theorem insertEdge_agents (asm : DAGAssembly) (f t : String) :
    (insertEdge asm f t).agents = asm.agents := rfl

@[simp] theorem insertEdge_ids (asm : DAGAssembly) (f t : String) :
    (insertEdge asm f t).ids = asm.ids := rfl

@[simp] theorem insertEdge_graph (asm : DAGAssembly) (f t x : String) :
    (insertEdge asm f t).graph x = if x = f then asm.graph f ++ [t] else asm.graph x := rfl

@[simp] theorem insertEdge_parents (asm : DAGAssembly) (f t x : String) :
    (insertEdge asm f t).parents_map x
      = if x = t then asm.parents_map t ++ [f] else asm.parents_map x := rfl

@[simp] theorem insertEdge_in_degree (asm : DAGAssembly) (f t x : String) :
    (insertEdge asm f t).in_degree x
      = if x = t then asm.in_degree t + 1 else asm.in_degree x := rfl

@[simp] theorem insertEdge_data_transit (asm : DAGAssembly) (f t : String) :
    (insertEdge asm f t).data_transit = asm.data_transit := rfl


theorem lookup_isSome_iff {β : Type} (l : List (String × β)) (k : String) :
    (List.lookup k l).isSome ↔ k ∈ l.map Prod.fst := by
  induction l with
  | nil => simp [List.lookup]
  | cons hd tl ih =>
      obtain ⟨a, b⟩ := hd
      by_cases h : k = a
      · subst h; simp [List.lookup]
      · have hb : (k == a) = false := beq_eq_false_iff_ne.mpr h
        simp [List.lookup, hb, h, ih]

theorem lookup_mem {β : Type} {l : List (String × β)} {k : String} {v : β}
    (h : List.lookup k l = some v) : (k, v) ∈ l := by
  induction l with
  | nil => simp [List.lookup] at h
  | cons hd tl ih =>
      obtain ⟨a, b⟩ := hd
      by_cases hk : k = a
      · subst hk
        simp [List.lookup] at h
        simp [h]
      · have hb : (k == a) = false := beq_eq_false_iff_ne.mpr hk
        simp [List.lookup, hb] at h
        exact List.mem_cons_of_mem _ (ih h)

theorem nodup_subset_len {l m : List String} (h1 : l.Nodup) (h2 : ∀ a ∈ l, a ∈ m) :
    l.length ≤ m.length := by
  calc l.length = l.toFinset.card := (List.toFinset_card_of_nodup h1).symm
    _ ≤ m.toFinset.card := by
        apply Finset.card_le_card
        intro a ha
        rw [List.mem_toFinset] at ha ⊢
        exact h2 a ha
    _ ≤ m.length := m.toFinset_card_le

theorem mem_of_nodup_len {l m : List String} (h1 : l.Nodup) (h2 : ∀ a ∈ l, a ∈ m)
    (h3 : m.length ≤ l.length) : ∀ a ∈ m, a ∈ l := by
  have hsub : l.toFinset ⊆ m.toFinset := by
    intro a ha
    rw [List.mem_toFinset] at ha ⊢
    exact h2 a ha
  have hcard : m.toFinset.card ≤ l.toFinset.card := by
    calc m.toFinset.card ≤ m.length := m.toFinset_card_le
      _ ≤ l.length := h3
      _ = l.toFinset.card := (List.toFinset_card_of_nodup h1).symm
  have heq := Finset.eq_of_subset_of_card_le hsub hcard
  intro a ha
  have : a ∈ m.toFinset := List.mem_toFinset.mpr ha
  rw [← heq] at this
  exact List.mem_toFinset.mp this

theorem eq_singleton_of_len_one {l : List String} {v : String}
    (h1 : l.length = 1) (h2 : v ∈ l) : l = [v] := by
  match l, h1 with
  | [x], _ => simp at h2; simp [h2]

/-- Characterization of the decrement loop's resulting counts. -/
theorem decSuccs_fst (indeg : String → Int) (l : List String) (hl : l.Nodup) (x : String) :
    (decSuccs indeg l).1 x = if x ∈ l then indeg x - 1 else indeg x := by
  induction l generalizing indeg with
  | nil => simp [decSuccs]
  | cons s rest ih =>
      have hs : s ∉ rest := (List.nodup_cons.mp hl).1
      have hrest : rest.Nodup := (List.nodup_cons.mp hl).2
      simp only [decSuccs]
      rw [ih _ hrest]
      by_cases hx : x ∈ rest
      · have hxs : x ≠ s := fun h => hs (h ▸ hx)
        simp [hx, hxs, List.mem_cons]
      · by_cases hxs : x = s
        · subst hxs
          simp [hx, List.mem_cons]
        · simp [hx, hxs, List.mem_cons]

/-- Characterization of the decrement loop's newly-ready list. -/
theorem decSuccs_snd (indeg : String → Int) (l : List String) (hl : l.Nodup) :
    (decSuccs indeg l).2 = l.filter (fun s => decide (indeg s - 1 = 0)) := by
  induction l generalizing indeg with
  | nil => simp [decSuccs]
  | cons s rest ih =>
      have hs : s ∉ rest := (List.nodup_cons.mp hl).1
      have hrest : rest.Nodup := (List.nodup_cons.mp hl).2
      simp only [decSuccs]
      rw [ih _ hrest]
      have hcongr : rest.filter (fun x => decide ((if x = s then indeg s - 1 else indeg x) - 1 = 0))
          = rest.filter (fun x => decide (indeg x - 1 = 0)) := by
        apply List.filter_congr
        intro x hx
        have : x ≠ s := fun h => hs (h ▸ hx)
        simp [this]
      rw [hcongr]
      by_cases hd : indeg s - 1 = 0
      · simp [List.filter_cons, hd]
      · simp [List.filter_cons, hd]

/-! ## The Kahn worklist invariant -/

theorem kahnInv_init {asm : DAGAssembly} (hC : Consistent asm) :
    KahnInv asm [] asm.entrySet asm.in_degree := by
  refine ⟨by simp, ?_, ?_, ?_, by simp⟩
  · simp only [List.nil_append]
    exact hC.nodup_ids.filter _
  · intro a
    have : unprocessed asm.parents_map [] a = asm.parents_map a := by
      simp [unprocessed]
    rw [this]
    exact hC.deg a
  · intro a
    constructor
    · intro ha
      simp only [DAGAssembly.entrySet, List.mem_filter] at ha
      refine ⟨ha.1, by simp, ?_⟩
      have hdeg : asm.in_degree a = 0 := by
        have := ha.2
        simpa using this
      have hlen : (asm.parents_map a).length = 0 := by
        have := hC.deg a
        omega
      intro p hp
      rw [List.length_eq_zero] at hlen
      rw [hlen] at hp
      simp at hp
    · rintro ⟨hid, -, hpar⟩
      simp only [DAGAssembly.entrySet, List.mem_filter]
      refine ⟨hid, ?_⟩
      have hlen : (asm.parents_map a).length = 0 := by
        rw [List.length_eq_zero, List.eq_nil_iff_forall_not_mem]
        intro p hp
        exact absurd (hpar p hp) (by simp)
      have := hC.deg a
      simp only [beq_iff_eq]
      omega

/-- Splitting off the head of the processed-set membership test. -/
theorem unprocessed_append {asm : DAGAssembly} (processed : List String) (v : String)
    (a : String) :
    unprocessed asm.parents_map (processed ++ [v]) a
      = (unprocessed asm.parents_map processed a).filter (fun x => decide (¬ x = v)) := by
  have hpt : ∀ x : String,
      decide (x ∉ processed ++ [v]) = (decide (¬ x = v) && decide (x ∉ processed)) := by
    intro x
    by_cases h1 : x ∈ processed <;> by_cases h2 : x = v <;> simp [h1, h2]
  unfold unprocessed
  rw [List.filter_filter]
  apply List.filter_congr
  intro x _
  exact hpt x

/-- Preservation of the worklist invariant by one dequeue-and-decrement
step (shared by the validator's and the scheduler's loops). -/
theorem kahnInv_step {asm : DAGAssembly} (hC : Consistent asm)
    {processed rest : List String} {indeg : String → Int} {v : String}
    (hirr : v ∉ asm.graph v)
    (inv : KahnInv asm processed (v :: rest) indeg) :
    KahnInv asm (processed ++ [v]) (rest ++ (decSuccs indeg (asm.graph v)).2)
      (decSuccs indeg (asm.graph v)).1 := by
  have hv : v ∈ v :: rest := List.mem_cons_self v rest
  obtain ⟨hvid, hvnp, hvpar⟩ := (inv.queue_iff v).mp hv
  have hfst := decSuccs_fst indeg (asm.graph v) (hC.nodup_succs v)
  have hsnd := decSuccs_snd indeg (asm.graph v) (hC.nodup_succs v)
  have hvrest : v ∉ rest := by
    have h1 : (v :: rest).Nodup := (List.nodup_append.mp inv.nd).2.1
    exact (List.nodup_cons.mp h1).1
  -- membership in the newly-ready list
  have hmem_snd : ∀ a, a ∈ (decSuccs indeg (asm.graph v)).2 ↔
      (a ∈ asm.graph v ∧ indeg a - 1 = 0) := by
    intro a
    rw [hsnd, List.mem_filter]
    simp
  -- elements of the newly-ready list are not yet processed and differ from v
  have hsnd_fresh : ∀ a ∈ (decSuccs indeg (asm.graph v)).2, a ∉ processed ∧ a ≠ v := by
    intro a ha
    obtain ⟨hag, _⟩ := (hmem_snd a).mp ha
    constructor
    · intro hap
      have hvin : v ∈ asm.parents_map a := (hC.conv v a).mp hag
      exact hvnp (inv.proc_closed a hap v hvin)
    · intro hav
      exact hirr (hav ▸ hag)
  -- elements of the newly-ready list are not in `rest`
  have hsnd_rest : ∀ a ∈ (decSuccs indeg (asm.graph v)).2, a ∉ rest := by
    intro a ha har
    obtain ⟨hag, hdeg1⟩ := (hmem_snd a).mp ha
    obtain ⟨-, -, hpar⟩ := (inv.queue_iff a).mp (List.mem_cons_of_mem v har)
    have hvin : v ∈ asm.parents_map a := (hC.conv v a).mp hag
    exact hvnp (hpar v hvin)
  -- the unprocessed-parents view of a node decremented to 0
  have hun_nodup : ∀ a, (unprocessed asm.parents_map processed a).Nodup := by
    intro a
    exact (hC.nodup_parents a).filter _
  refine ⟨?_, ?_, ?_, ?_, ?_⟩
  · intro a ha
    rcases List.mem_append.mp ha with h | h
    · exact inv.sub_p a h
    · simp at h
      exact h ▸ hvid
  · -- nodup of (processed ++ [v]) ++ (rest ++ newly)
    have hx : (processed ++ [v] ++ rest).Nodup := by
      have : processed ++ v :: rest = processed ++ [v] ++ rest := by simp
      exact this ▸ inv.nd
    refine List.nodup_append.mpr ⟨?_, ?_, ?_⟩
    · exact hx.of_append_left
    · refine List.nodup_append.mpr ⟨?_, ?_, ?_⟩
      · exact (List.nodup_cons.mp (List.nodup_append.mp inv.nd).2.1).2
      · rw [hsnd]
        exact (hC.nodup_succs v).filter _
      · intro a ha hb
        exact hsnd_rest a hb ha
    · intro a ha hb
      rcases List.mem_append.mp hb with h | h
      · exact (List.nodup_append.mp hx).2.2 ha h
      · rcases List.mem_append.mp ha with h2 | h2
        · exact (hsnd_fresh a h).1 h2
        · simp at h2
          exact (hsnd_fresh a h).2 (h2 ▸ rfl)
  · -- current counts
    intro a
    rw [hfst a, unprocessed_append]
    by_cases hag : a ∈ asm.graph v
    · have hvpa : v ∈ asm.parents_map a := (hC.conv v a).mp hag
      have hvun : v ∈ unprocessed asm.parents_map processed a := by
        simp only [unprocessed, List.mem_filter]
        exact ⟨hvpa, by simpa using hvnp⟩
      have herase : (unprocessed asm.parents_map processed a).filter (fun x => decide (¬ x = v))
          = (unprocessed asm.parents_map processed a).erase v := by
        rw [(hun_nodup a).erase_eq_filter]
        apply List.filter_congr
        intro x _
        by_cases h : x = v <;> simp [h]
      rw [if_pos hag, inv.deg_cur a, herase]
      have hlen := List.length_erase_of_mem hvun
      have hpos : 0 < (unprocessed asm.parents_map processed a).length :=
        List.length_pos.mpr (by intro h; rw [h] at hvun; simp at hvun)
      rw [hlen]
      omega
    · have hvpa : v ∉ asm.parents_map a := fun h => hag ((hC.conv v a).mpr h)
      have hsame : (unprocessed asm.parents_map processed a).filter (fun x => decide (¬ x = v))
          = unprocessed asm.parents_map processed a := by
        apply List.filter_eq_self.mpr
        intro x hx
        simp only [unprocessed, List.mem_filter] at hx
        have : x ≠ v := fun h => hvpa (h ▸ hx.1)
        simpa using this
      rw [if_neg hag, inv.deg_cur a, hsame]
  · -- queue characterization
    intro a
    constructor
    · intro ha
      rcases List.mem_append.mp ha with h | h
      · obtain ⟨h1, h2, h3⟩ := (inv.queue_iff a).mp (List.mem_cons_of_mem v h)
        have hane : a ≠ v := fun hav => hvrest (hav ▸ h)
        refine ⟨h1, ?_, ?_⟩
        · intro hmem
          rcases List.mem_append.mp hmem with hm | hm
          · exact h2 hm
          · simp at hm; exact hane hm
        · intro p hp
          exact List.mem_append.mpr (Or.inl (h3 p hp))
      · obtain ⟨hag, hdeg1⟩ := (hmem_snd a).mp h
        have hvpa : v ∈ asm.parents_map a := (hC.conv v a).mp hag
        have hvun : v ∈ unprocessed asm.parents_map processed a := by
          simp only [unprocessed, List.mem_filter]
          exact ⟨hvpa, by simpa using hvnp⟩
        have hlen1 : (unprocessed asm.parents_map processed a).length = 1 := by
          have := inv.deg_cur a
          omega
        have hsingle : unprocessed asm.parents_map processed a = [v] :=
          eq_singleton_of_len_one hlen1 hvun
        refine ⟨(hC.edge_mem v a hag).2, ?_, ?_⟩
        · intro hmem
          rcases List.mem_append.mp hmem with hm | hm
          · exact (hsnd_fresh a h).1 hm
          · simp at hm; exact (hsnd_fresh a h).2 hm
        · intro p hp
          by_cases hpp : p ∈ processed
          · exact List.mem_append.mpr (Or.inl hpp)
          · have : p ∈ unprocessed asm.parents_map processed a := by
              simp only [unprocessed, List.mem_filter]
              exact ⟨hp, by simpa using hpp⟩
            rw [hsingle] at this
            simp at this
            subst this
            exact List.mem_append.mpr (Or.inr (by simp))
    · rintro ⟨hid, hnp, hpar⟩
      have hanv : a ≠ v := by
        intro hav
        exact hnp (hav ▸ List.mem_append.mpr (Or.inr (by simp)))
      have hnp' : a ∉ processed := fun h => hnp (List.mem_append.mpr (Or.inl h))
      by_cases hsub : ∀ p ∈ asm.parents_map a, p ∈ processed
      · have : a ∈ v :: rest := (inv.queue_iff a).mpr ⟨hid, hnp', hsub⟩
        rcases List.mem_cons.mp this with h | h
        · exact absurd h hanv
        · exact List.mem_append.mpr (Or.inl h)
      · push_neg at hsub
        obtain ⟨q, hq, hqnp⟩ := hsub
        have hqv : q = v := by
          have := hpar q hq
          rcases List.mem_append.mp this with h | h
          · exact absurd h hqnp
          · simpa using h
        subst hqv
        have hag : a ∈ asm.graph q := (hC.conv q a).mpr hq
        have hqun : q ∈ unprocessed asm.parents_map processed a := by
          simp only [unprocessed, List.mem_filter]
          exact ⟨hq, by simpa using hqnp⟩
        -- every unprocessed parent of a equals q, so the count is 1
        have hall : ∀ x ∈ unprocessed asm.parents_map processed a, x = q := by
          intro x hx
          simp only [unprocessed, List.mem_filter] at hx
          have hxp := hpar x hx.1
          rcases List.mem_append.mp hxp with h | h
          · exact absurd h (by simpa using hx.2)
          · simpa using h
        have hlen1 : (unprocessed asm.parents_map processed a).length = 1 := by
          have hle : (unprocessed asm.parents_map processed a).length ≤ 1 := by
            have := nodup_subset_len (hun_nodup a)
              (fun x hx => by rw [hall x hx]; exact List.mem_singleton_self q)
            simpa using this
          have hpos : 0 < (unprocessed asm.parents_map processed a).length :=
            List.length_pos.mpr (by rintro h; rw [h] at hqun; simp at hqun)
          omega
        have hdeg1 : indeg a - 1 = 0 := by
          have := inv.deg_cur a
          omega
        exact List.mem_append.mpr (Or.inr ((hmem_snd a).mpr ⟨hag, hdeg1⟩))
  · -- processed is predecessor-closed
    intro a ha p hp
    rcases List.mem_append.mp ha with h | h
    · exact List.mem_append.mpr (Or.inl (inv.proc_closed a h p hp))
    · simp at h
      subst h
      exact List.mem_append.mpr (Or.inl (hvpar p hp))

theorem acyclic_irrefl {asm : DAGAssembly} (hA : Acyclic asm) : ∀ v, v ∉ asm.graph v := by
  obtain ⟨rank, hrank⟩ := hA
  intro v hv
  exact absurd (hrank v v hv) (lt_irrefl _)

/-- When the queue has run dry on an acyclic graph, every registered
agent has been processed. -/
theorem kahnInv_exhausted {asm : DAGAssembly} (hC : Consistent asm) (hA : Acyclic asm)
    {processed : List String} {indeg : String → Int}
    (inv : KahnInv asm processed [] indeg) :
    ∀ a ∈ asm.ids, a ∈ processed := by
  obtain ⟨rank, hrank⟩ := hA
  suffices h : ∀ n, ∀ a, a ∈ asm.ids → rank a < n → a ∈ processed by
    intro a ha
    exact h (rank a + 1) a ha (Nat.lt_succ_self _)
  intro n
  induction n with
  | zero => intro a _ h; omega
  | succ n ih =>
      intro a ha hlt
      by_contra hnp
      have hq := (inv.queue_iff a).not.mp (by simp)
      push_neg at hq
      obtain ⟨p, hp, hpnp⟩ := hq ha hnp
      have hedge : a ∈ asm.graph p := (hC.conv p a).mpr hp
      have hpid : p ∈ asm.ids := (hC.edge_mem p a hedge).1
      have hpr : rank p < rank a := hrank p a hedge
      exact hpnp (ih p hpid (by omega))

/-- Once as many distinct agents are processed as are registered, all are. -/
theorem kahnInv_full {asm : DAGAssembly}
    {processed queue : List String} {indeg : String → Int}
    (inv : KahnInv asm processed queue indeg)
    (hlen : asm.ids.length ≤ processed.length) :
    ∀ a ∈ asm.ids, a ∈ processed :=
  mem_of_nodup_len (List.nodup_append.mp inv.nd).1 inv.sub_p hlen

/-- Completeness of the Kahn worklist: on a consistent acyclic state,
starting from any invariant-satisfying configuration with enough fuel,
the visited counter reaches the number of registered agents. -/
theorem kahnLoop_complete {asm : DAGAssembly} (hC : Consistent asm) (hA : Acyclic asm) :
    ∀ fuel (processed queue : List String) (indeg : String → Int),
      KahnInv asm processed queue indeg →
      asm.ids.length ≤ fuel + processed.length →
      kahnLoop asm.graph fuel queue indeg processed.length = asm.ids.length := by
  intro fuel
  induction fuel with
  | zero =>
      intro processed queue indeg inv hfuel
      have h1 : processed.length ≤ asm.ids.length :=
        nodup_subset_len (List.nodup_append.mp inv.nd).1 inv.sub_p
      simp only [kahnLoop]
      omega
  | succ fuel ih =>
      intro processed queue indeg inv hfuel
      match queue with
      | [] =>
          have h1 : processed.length ≤ asm.ids.length :=
            nodup_subset_len (List.nodup_append.mp inv.nd).1 inv.sub_p
          have h2 : asm.ids.length ≤ processed.length :=
            nodup_subset_len hC.nodup_ids (kahnInv_exhausted hC hA inv)
          simp only [kahnLoop]
          omega
      | v :: rest =>
          have inv' := kahnInv_step hC (acyclic_irrefl hA v) inv
          have hstep := ih (processed ++ [v]) (rest ++ (decSuccs indeg (asm.graph v)).2)
            (decSuccs indeg (asm.graph v)).1 inv' (by simp; omega)
          simp only [kahnLoop]
          simp only [List.length_append, List.length_singleton] at hstep
          exact hstep

/-- On a consistent acyclic assembly the cycle validator passes. -/
theorem validate_ok {asm : DAGAssembly} (hC : Consistent asm) (hA : Acyclic asm) :
    asm.validate_no_cycles = Option.none := by
  have hlen : asm.agents.length = asm.ids.length := by
    simp [DAGAssembly.ids]
  have h := kahnLoop_complete hC hA asm.agents.length [] asm.entrySet asm.in_degree
    (kahnInv_init hC) (by simp [hlen])
  simp only [List.length_nil] at h
  unfold DAGAssembly.validate_no_cycles
  rw [h, hlen]
  simp

/-! ## Store behaviour of the agent implementations -/

theorem foldl_record_input_outputs (aid : String) (l : List PyVal) (st : DataTransit) :
    (l.foldl (fun s item => s.record_input aid item) st).outputs = st.outputs := by
  induction l generalizing st with
  | nil => rfl
  | cons h t ih => rw [List.foldl_cons, ih]; rfl

theorem foldl_record_intermediary_outputs (aid : String) (l : List PyVal) (st : DataTransit) :
    (l.foldl (fun s item => s.record_intermediary aid item) st).outputs = st.outputs := by
  induction l generalizing st with
  | nil => rfl
  | cons h t ih => rw [List.foldl_cons, ih]; rfl

/-- On success, `agent.run` records exactly its returned result as its
own output. -/
theorem runImpl_ok_outputs {a : Agent} {aid : String} {st : DataTransit}
    {input_data : List PyVal} {v : PyVal}
    (h : (Agent.runImpl a aid st input_data).2 = .ok v) :
    (Agent.runImpl a aid st input_data).1.outputs aid = some v := by
  cases a with
  | functionAgent cfg =>
      rcases hcf : cfg.func with - | fn
      · simp [Agent.runImpl, hcf] at h
      · rcases hr : fn input_data with e | r
        · simp [Agent.runImpl, hcf, hr] at h
        · simp only [Agent.runImpl, hcf, hr] at h ⊢
          simp at h
          subst h
          simp [DataTransit.record_output]
  | llmAgent cfg oracle =>
      rcases hr : oracle input_data with e | ⟨inters, final⟩
      · simp [Agent.runImpl, hr] at h
      · simp only [Agent.runImpl, hr] at h ⊢
        simp at h
        subst h
        simp [DataTransit.record_output]

/-- `agent.run` never writes another agent's output slot. -/
theorem runImpl_outputs_frame (a : Agent) (aid : String) (st : DataTransit)
    (input_data : List PyVal) :
    ∀ x, x ≠ aid → (Agent.runImpl a aid st input_data).1.outputs x = st.outputs x := by
  intro x hx
  cases a with
  | functionAgent cfg =>
      rcases hcf : cfg.func with - | fn
      · simp [Agent.runImpl, hcf, foldl_record_input_outputs]
      · rcases hr : fn input_data with e | r
        · simp [Agent.runImpl, hcf, hr, foldl_record_input_outputs]
        · simp [Agent.runImpl, hcf, hr, DataTransit.record_output,
            foldl_record_input_outputs, hx]
  | llmAgent cfg oracle =>
      rcases hr : oracle input_data with e | ⟨inters, final⟩
      · simp [Agent.runImpl, hr, foldl_record_input_outputs]
      · simp [Agent.runImpl, hr, DataTransit.record_output,
          foldl_record_intermediary_outputs, foldl_record_input_outputs, hx]

/-- When `agent.run` raises, it has not touched any output slot. -/
theorem runImpl_err_outputs {a : Agent} {aid : String} {st : DataTransit}
    {input_data : List PyVal} {e : String}
    (h : (Agent.runImpl a aid st input_data).2 = .error e) :
    (Agent.runImpl a aid st input_data).1.outputs = st.outputs := by
  cases a with
  | functionAgent cfg =>
      rcases hcf : cfg.func with - | fn
      · simp [Agent.runImpl, hcf, foldl_record_input_outputs]
      · rcases hr : fn input_data with e2 | r
        · simp [Agent.runImpl, hcf, hr, foldl_record_input_outputs]
        · simp [Agent.runImpl, hcf, hr] at h
  | llmAgent cfg oracle =>
      rcases hr : oracle input_data with e2 | ⟨inters, final⟩
      · simp [Agent.runImpl, hr, foldl_record_input_outputs]
      · simp [Agent.runImpl, hr] at h

/-! ## The event-loop master lemmas -/

/-- At the end of a complete run all live counts have reached 0. -/
theorem kahnInv_final_indeg {asm : DAGAssembly} (hC : Consistent asm)
    {processed queue : List String} {indeg : String → Int}
    (inv : KahnInv asm processed queue indeg)
    (hall : ∀ a ∈ asm.ids, a ∈ processed) : ∀ a, indeg a = 0 := by
  intro a
  rw [inv.deg_cur a]
  have : unprocessed asm.parents_map processed a = [] := by
    rw [unprocessed, List.filter_eq_nil_iff]
    intro p hp
    have hedge : a ∈ asm.graph p := (hC.conv p a).mpr hp
    have hpid : p ∈ asm.ids := (hC.edge_mem p a hedge).1
    simp [hall p hpid]
  rw [this]
  simp

/-! ### Queue-shape lemmas for the item counters -/

theorem taskIds_cons_task (aid : String) (ud : PyVal) (q : List LoopItem) :
    taskIds (LoopItem.taskStep aid ud :: q) = aid :: taskIds q := rfl

theorem taskIds_cons_gcb (aid : String) (q : List LoopItem) :
    taskIds (LoopItem.gatherCb aid :: q) = taskIds q := rfl

theorem taskIds_cons_resume (q : List LoopItem) :
    taskIds (LoopItem.runResume :: q) = taskIds q := rfl

theorem taskIds_append (q1 q2 : List LoopItem) :
    taskIds (q1 ++ q2) = taskIds q1 ++ taskIds q2 := by
  simp [taskIds]

theorem taskIds_map_none (l : List String) :
    taskIds (l.map fun y => LoopItem.taskStep y PyVal.none) = l := by
  induction l with
  | nil => rfl
  | cons x xs ih =>
      show x :: taskIds (xs.map fun y => LoopItem.taskStep y PyVal.none) = x :: xs
      rw [ih]

theorem taskIds_entry_queue (l : List String) (m : List (String × PyVal)) :
    taskIds (l.map fun a => LoopItem.taskStep a (dictGet m a)) = l := by
  induction l with
  | nil => rfl
  | cons x xs ih =>
      show x :: taskIds (xs.map fun a => LoopItem.taskStep a (dictGet m a)) = x :: xs
      rw [ih]

theorem taskIds_single_resume : taskIds [LoopItem.runResume] = [] := rfl

theorem taskIds_gcb_opt (c : Prop) [Decidable c] (aid : String) :
    taskIds (if c then [LoopItem.gatherCb aid] else []) = [] := by
  by_cases h : c <;> simp [h, taskIds]

theorem gcbCount_cons_task (aid : String) (ud : PyVal) (q : List LoopItem) :
    gcbCount (LoopItem.taskStep aid ud :: q) = gcbCount q := rfl

theorem gcbCount_cons_gcb (aid : String) (q : List LoopItem) :
    gcbCount (LoopItem.gatherCb aid :: q) = gcbCount q + 1 := rfl

theorem gcbCount_cons_resume (q : List LoopItem) :
    gcbCount (LoopItem.runResume :: q) = gcbCount q := rfl

theorem gcbCount_append (q1 q2 : List LoopItem) :
    gcbCount (q1 ++ q2) = gcbCount q1 + gcbCount q2 := by
  simp [gcbCount]

theorem gcbCount_map_none (l : List String) :
    gcbCount (l.map fun y => LoopItem.taskStep y PyVal.none) = 0 := by
  induction l with
  | nil => rfl
  | cons x xs ih =>
      show gcbCount (xs.map fun y => LoopItem.taskStep y PyVal.none) = 0
      exact ih

theorem gcbCount_entry_queue (l : List String) (m : List (String × PyVal)) :
    gcbCount (l.map fun a => LoopItem.taskStep a (dictGet m a)) = 0 := by
  induction l with
  | nil => rfl
  | cons x xs ih =>
      show gcbCount (xs.map fun a => LoopItem.taskStep a (dictGet m a)) = 0
      exact ih

theorem gcbCount_single_gcb (aid : String) : gcbCount [LoopItem.gatherCb aid] = 1 := rfl

theorem gcbCount_single_resume : gcbCount [LoopItem.runResume] = 0 := rfl

theorem gcbCount_nil : gcbCount ([] : List LoopItem) = 0 := rfl

theorem resumeCount_nil : resumeCount ([] : List LoopItem) = 0 := rfl

theorem resumeCount_cons_task (aid : String) (ud : PyVal) (q : List LoopItem) :
    resumeCount (LoopItem.taskStep aid ud :: q) = resumeCount q := rfl

theorem resumeCount_cons_gcb (aid : String) (q : List LoopItem) :
    resumeCount (LoopItem.gatherCb aid :: q) = resumeCount q := rfl

theorem resumeCount_cons_resume (q : List LoopItem) :
    resumeCount (LoopItem.runResume :: q) = resumeCount q + 1 := rfl

theorem resumeCount_append (q1 q2 : List LoopItem) :
    resumeCount (q1 ++ q2) = resumeCount q1 + resumeCount q2 := by
  simp [resumeCount]

theorem resumeCount_map_none (l : List String) :
    resumeCount (l.map fun y => LoopItem.taskStep y PyVal.none) = 0 := by
  induction l with
  | nil => rfl
  | cons x xs ih =>
      show resumeCount (xs.map fun y => LoopItem.taskStep y PyVal.none) = 0
      exact ih

theorem resumeCount_entry_queue (l : List String) (m : List (String × PyVal)) :
    resumeCount (l.map fun a => LoopItem.taskStep a (dictGet m a)) = 0 := by
  induction l with
  | nil => rfl
  | cons x xs ih =>
      show resumeCount (xs.map fun a => LoopItem.taskStep a (dictGet m a)) = 0
      exact ih

theorem resumeCount_single_gcb (aid : String) :
    resumeCount [LoopItem.gatherCb aid] = 0 := rfl

theorem resumeCount_single_resume : resumeCount [LoopItem.runResume] = 1 := rfl

theorem resumeCount_gcb_opt (c : Prop) [Decidable c] (aid : String) :
    resumeCount (if c then [LoopItem.gatherCb aid] else []) = 0 := by
  by_cases h : c <;> simp [h, resumeCount]

/-- A queued task step belongs to a never-executed agent, so strictly
fewer agents than registered have executed so far. -/
theorem processed_lt_of_queue_cons {asm : DAGAssembly} {processed : List String}
    {aid : String} {q : List String} {indeg : String → Int}
    (inv : KahnInv asm processed (aid :: q) indeg) :
    processed.length < asm.ids.length := by
  obtain ⟨haidid, haidnp, -⟩ := (inv.queue_iff aid).mp (List.mem_cons_self aid q)
  have hnd : (processed ++ [aid]).Nodup := by
    refine List.nodup_append.mpr
      ⟨(List.nodup_append.mp inv.nd).1, List.nodup_singleton aid, ?_⟩
    intro a ha hmem
    simp at hmem
    subst hmem
    exact haidnp ha
  have hsub : ∀ a ∈ processed ++ [aid], a ∈ asm.ids := by
    intro a ha
    rcases List.mem_append.mp ha with h | h
    · exact inv.sub_p a h
    · simp at h
      subst h
      exact haidid
  have hle := nodup_subset_len hnd hsub
  simp at hle
  omega

/-- Gather bookkeeping (callback processing, resolution, resumption)
leaves the Kahn data — executed agents, queued task steps, counts,
store — untouched. -/
theorem loopInv_update {asm : DAGAssembly} {s : LoopState} (hinv : LoopInv asm s)
    {q : List LoopItem} (hq : taskIds q = taskIds s.queue) (pe : List String)
    (res : Bool) (gv : Option String) (ri : Option (List String × Option String)) :
    LoopInv asm { s with queue := q, pendingEntry := pe, resolved := res,
                         gatherVerdict := gv, returnInfo := ri } := by
  refine ⟨?_, hinv.stinv⟩
  show KahnInv asm s.executed (taskIds q) s.indeg
  rw [hq]
  exact hinv.kinv

/-- One event-loop iteration on a consistent acyclic assembly whose
agents all succeed preserves the loop invariant and strictly decreases
the loop measure. -/
theorem loopStep_preserves {asm : DAGAssembly} (hC : Consistent asm) (hA : Acyclic asm)
    (hok : ∀ p ∈ asm.agents, Agent.alwaysOk p.2) (entries : List String)
    {s : LoopState} (hinv : LoopInv asm s) (hne : ¬ s.queue = []) :
    LoopInv asm (loopStep asm entries s)
    ∧ loopMeasure asm.ids.length (loopStep asm entries s)
      < loopMeasure asm.ids.length s := by
  rcases hq : s.queue with _ | ⟨item, rest⟩
  · exact absurd hq hne
  · cases item with
    | taskStep aid ud =>
        have htq : taskIds s.queue = aid :: taskIds rest := by
          rw [hq, taskIds_cons_task]
        have hkq : KahnInv asm s.executed (aid :: taskIds rest) s.indeg := by
          rw [← htq]
          exact hinv.kinv
        obtain ⟨haidid, haidnp, -⟩ :=
          (hkq.queue_iff aid).mp (List.mem_cons_self aid (taskIds rest))
        have hlk : (List.lookup aid asm.agents).isSome :=
          (lookup_isSome_iff asm.agents aid).mpr haidid
        obtain ⟨ag, hag⟩ := Option.isSome_iff_exists.mp hlk
        have hstep : runAgentStep asm aid ud s.store
            = Agent.runImpl ag aid s.store
                (assembleInputs asm.parents_map s.store aid ud) := by
          simp [runAgentStep, hag]
        obtain ⟨v, hv⟩ := hok (aid, ag) (lookup_mem hag) aid s.store
          (assembleInputs asm.parents_map s.store aid ud)
        have hre : runAgentStep asm aid ud s.store
            = ((Agent.runImpl ag aid s.store
                  (assembleInputs asm.parents_map s.store aid ud)).1, .ok v) := by
          rw [hstep]
          exact Prod.ext rfl hv
        have hred : loopStep asm entries s
            = { s with
                queue := rest ++ (decSuccs s.indeg (asm.graph aid)).2.map
                    (fun x => LoopItem.taskStep x PyVal.none)
                  ++ (if aid ∈ entries then [LoopItem.gatherCb aid] else []),
                indeg := (decSuccs s.indeg (asm.graph aid)).1,
                store := (Agent.runImpl ag aid s.store
                  (assembleInputs asm.parents_map s.store aid ud)).1,
                executed := s.executed ++ [aid] } := by
          simp only [loopStep, hq, hre]
        have hlt := processed_lt_of_queue_cons hkq
        have htq2 : taskIds (rest ++ (decSuccs s.indeg (asm.graph aid)).2.map
              (fun x => LoopItem.taskStep x PyVal.none)
            ++ (if aid ∈ entries then [LoopItem.gatherCb aid] else []))
            = taskIds rest ++ (decSuccs s.indeg (asm.graph aid)).2 := by
          rw [taskIds_append, taskIds_append, taskIds_map_none, taskIds_gcb_opt,
            List.append_nil]
        have hinv' : LoopInv asm { s with
            queue := rest ++ (decSuccs s.indeg (asm.graph aid)).2.map
                (fun x => LoopItem.taskStep x PyVal.none)
              ++ (if aid ∈ entries then [LoopItem.gatherCb aid] else []),
            indeg := (decSuccs s.indeg (asm.graph aid)).1,
            store := (Agent.runImpl ag aid s.store
              (assembleInputs asm.parents_map s.store aid ud)).1,
            executed := s.executed ++ [aid] } := by
          constructor
          · show KahnInv asm (s.executed ++ [aid])
              (taskIds (rest ++ (decSuccs s.indeg (asm.graph aid)).2.map
                  (fun x => LoopItem.taskStep x PyVal.none)
                ++ (if aid ∈ entries then [LoopItem.gatherCb aid] else [])))
              (decSuccs s.indeg (asm.graph aid)).1
            rw [htq2]
            exact kahnInv_step hC (acyclic_irrefl hA aid) hkq
          · show ∀ a ∈ s.executed ++ [aid],
              (((Agent.runImpl ag aid s.store
                (assembleInputs asm.parents_map s.store aid ud)).1).outputs a).isSome
            intro a ha
            rcases List.mem_append.mp ha with h | h
            · have hane : a ≠ aid := fun hh => haidnp (hh ▸ h)
              rw [runImpl_outputs_frame ag aid s.store _ a hane]
              exact hinv.stinv a h
            · simp at h
              subst h
              rw [runImpl_ok_outputs hv]
              rfl
        have hg1 : gcbCount s.queue = gcbCount rest := by rw [hq, gcbCount_cons_task]
        have hr1 : resumeCount s.queue = resumeCount rest := by
          rw [hq, resumeCount_cons_task]
        have hmeas : loopMeasure asm.ids.length { s with
              queue := rest ++ (decSuccs s.indeg (asm.graph aid)).2.map
                  (fun x => LoopItem.taskStep x PyVal.none)
                ++ (if aid ∈ entries then [LoopItem.gatherCb aid] else []),
              indeg := (decSuccs s.indeg (asm.graph aid)).1,
              store := (Agent.runImpl ag aid s.store
                (assembleInputs asm.parents_map s.store aid ud)).1,
              executed := s.executed ++ [aid] }
            < loopMeasure asm.ids.length s := by
          show 4 * (asm.ids.length - (s.executed ++ [aid]).length)
              + 2 * gcbCount (rest ++ (decSuccs s.indeg (asm.graph aid)).2.map
                  (fun x => LoopItem.taskStep x PyVal.none)
                ++ (if aid ∈ entries then [LoopItem.gatherCb aid] else []))
              + resumeCount (rest ++ (decSuccs s.indeg (asm.graph aid)).2.map
                  (fun x => LoopItem.taskStep x PyVal.none)
                ++ (if aid ∈ entries then [LoopItem.gatherCb aid] else []))
              < 4 * (asm.ids.length - s.executed.length) + 2 * gcbCount s.queue
                + resumeCount s.queue
          have hlen : (s.executed ++ [aid]).length = s.executed.length + 1 := by simp
          by_cases he : aid ∈ entries
          · rw [hlen, hg1, hr1, if_pos he, gcbCount_append, gcbCount_append,
              gcbCount_map_none, gcbCount_single_gcb, resumeCount_append,
              resumeCount_append, resumeCount_map_none, resumeCount_single_gcb]
            omega
          · rw [hlen, hg1, hr1, if_neg he, gcbCount_append, gcbCount_append,
              gcbCount_map_none, gcbCount_nil, resumeCount_append, resumeCount_append,
              resumeCount_map_none, resumeCount_nil]
            omega
        rw [hred]
        exact ⟨hinv', hmeas⟩
    | gatherCb aid =>
        have hg1 : gcbCount s.queue = gcbCount rest + 1 := by rw [hq, gcbCount_cons_gcb]
        have hr1 : resumeCount s.queue = resumeCount rest := by
          rw [hq, resumeCount_cons_gcb]
        have htq : taskIds rest = taskIds s.queue := by rw [hq, taskIds_cons_gcb]
        have htqr : taskIds (rest ++ [LoopItem.runResume]) = taskIds s.queue := by
          rw [taskIds_append, taskIds_single_resume, List.append_nil, hq,
            taskIds_cons_gcb]
        by_cases hres : s.resolved
        · have hred : loopStep asm entries s
              = { s with queue := rest, pendingEntry := s.pendingEntry.erase aid } := by
            simp only [loopStep, hq]
            rw [if_pos hres]
          rw [hred]
          refine ⟨loopInv_update hinv htq _ _ _ _, ?_⟩
          show 4 * (asm.ids.length - s.executed.length) + 2 * gcbCount rest
              + resumeCount rest
            < 4 * (asm.ids.length - s.executed.length) + 2 * gcbCount s.queue
              + resumeCount s.queue
          rw [hg1, hr1]
          omega
        · rcases hlk : List.lookup aid s.taskErrors with _ | e
          · by_cases hpe : (s.pendingEntry.erase aid).isEmpty
            · have hred : loopStep asm entries s
                  = { s with queue := rest ++ [LoopItem.runResume],
                             pendingEntry := s.pendingEntry.erase aid,
                             resolved := true, gatherVerdict := Option.none } := by
                simp only [loopStep, hq, hlk]
                rw [if_neg hres, if_pos hpe]
              rw [hred]
              refine ⟨loopInv_update hinv htqr _ _ _ _, ?_⟩
              show 4 * (asm.ids.length - s.executed.length)
                  + 2 * gcbCount (rest ++ [LoopItem.runResume])
                  + resumeCount (rest ++ [LoopItem.runResume])
                < 4 * (asm.ids.length - s.executed.length) + 2 * gcbCount s.queue
                  + resumeCount s.queue
              rw [gcbCount_append, gcbCount_single_resume, resumeCount_append,
                resumeCount_single_resume, hg1, hr1]
              omega
            · have hred : loopStep asm entries s
                  = { s with queue := rest,
                             pendingEntry := s.pendingEntry.erase aid } := by
                simp only [loopStep, hq, hlk]
                rw [if_neg hres, if_neg hpe]
              rw [hred]
              refine ⟨loopInv_update hinv htq _ _ _ _, ?_⟩
              show 4 * (asm.ids.length - s.executed.length) + 2 * gcbCount rest
                  + resumeCount rest
                < 4 * (asm.ids.length - s.executed.length) + 2 * gcbCount s.queue
                  + resumeCount s.queue
              rw [hg1, hr1]
              omega
          · have hred : loopStep asm entries s
                = { s with queue := rest ++ [LoopItem.runResume],
                           pendingEntry := s.pendingEntry.erase aid,
                           resolved := true, gatherVerdict := some e } := by
              simp only [loopStep, hq, hlk]
              rw [if_neg hres]
            rw [hred]
            refine ⟨loopInv_update hinv htqr _ _ _ _, ?_⟩
            show 4 * (asm.ids.length - s.executed.length)
                + 2 * gcbCount (rest ++ [LoopItem.runResume])
                + resumeCount (rest ++ [LoopItem.runResume])
              < 4 * (asm.ids.length - s.executed.length) + 2 * gcbCount s.queue
                + resumeCount s.queue
            rw [gcbCount_append, gcbCount_single_resume, resumeCount_append,
              resumeCount_single_resume, hg1, hr1]
            omega
    | runResume =>
        have hg1 : gcbCount s.queue = gcbCount rest := by rw [hq, gcbCount_cons_resume]
        have hr1 : resumeCount s.queue = resumeCount rest + 1 := by
          rw [hq, resumeCount_cons_resume]
        have htq : taskIds rest = taskIds s.queue := by rw [hq, taskIds_cons_resume]
        have hred : loopStep asm entries s
            = { s with queue := rest,
                       returnInfo := some (s.executed, s.gatherVerdict) } := by
          simp only [loopStep, hq]
        rw [hred]
        refine ⟨loopInv_update hinv htq _ _ _ _, ?_⟩
        show 4 * (asm.ids.length - s.executed.length) + 2 * gcbCount rest
            + resumeCount rest
          < 4 * (asm.ids.length - s.executed.length) + 2 * gcbCount s.queue
            + resumeCount s.queue
        rw [hg1, hr1]
        omega

/-- A non-empty ready queue has positive measure. -/
theorem loopMeasure_pos {asm : DAGAssembly} {s : LoopState} (hinv : LoopInv asm s)
    (hne : ¬ s.queue = []) : 0 < loopMeasure asm.ids.length s := by
  rcases hq : s.queue with _ | ⟨item, rest⟩
  · exact absurd hq hne
  · cases item with
    | taskStep aid ud =>
        have htq : taskIds s.queue = aid :: taskIds rest := by
          rw [hq, taskIds_cons_task]
        have hkq : KahnInv asm s.executed (aid :: taskIds rest) s.indeg := by
          rw [← htq]
          exact hinv.kinv
        have hlt := processed_lt_of_queue_cons hkq
        show 0 < 4 * (asm.ids.length - s.executed.length) + 2 * gcbCount s.queue
            + resumeCount s.queue
        omega
    | gatherCb aid =>
        have hg1 : gcbCount s.queue = gcbCount rest + 1 := by rw [hq, gcbCount_cons_gcb]
        show 0 < 4 * (asm.ids.length - s.executed.length) + 2 * gcbCount s.queue
            + resumeCount s.queue
        omega
    | runResume =>
        have hr1 : resumeCount s.queue = resumeCount rest + 1 := by
          rw [hq, resumeCount_cons_resume]
        show 0 < 4 * (asm.ids.length - s.executed.length) + 2 * gcbCount s.queue
            + resumeCount s.queue
        omega

/-- Master lemma: with enough fuel (any bound on the measure) the event
loop drains its queue completely, maintaining the loop invariant.  With
all agents succeeding this covers the whole of a run's task activity,
including the part scheduled after `run()` itself has returned. -/
theorem runEventLoop_drains {asm : DAGAssembly} (hC : Consistent asm) (hA : Acyclic asm)
    (hok : ∀ p ∈ asm.agents, Agent.alwaysOk p.2) (entries : List String) :
    ∀ (fuel : Nat) (s : LoopState), LoopInv asm s →
      loopMeasure asm.ids.length s ≤ fuel →
      (runEventLoop asm entries fuel s).queue = []
      ∧ LoopInv asm (runEventLoop asm entries fuel s) := by
  intro fuel
  induction fuel with
  | zero =>
      intro s hinv hm
      by_cases hq : s.queue = []
      · exact ⟨hq, hinv⟩
      · exact absurd hm (by have := loopMeasure_pos hinv hq; omega)
  | succ fuel ih =>
      intro s hinv hm
      by_cases hq : s.queue = []
      · have hred : runEventLoop asm entries (fuel + 1) s = s := by
          simp only [runEventLoop]
          rw [if_pos (by simp [hq])]
        rw [hred]
        exact ⟨hq, hinv⟩
      · have hqe : s.queue.isEmpty = false := by
          rcases hq2 : s.queue with _ | ⟨it, rs⟩
          · exact absurd hq2 hq
          · rfl
        have hred : runEventLoop asm entries (fuel + 1) s
            = runEventLoop asm entries fuel (loopStep asm entries s) := by
          simp only [runEventLoop]
          rw [if_neg (by simp [hqe])]
        rw [hred]
        obtain ⟨hinv', hlt⟩ := loopStep_preserves hC hA hok entries hinv hq
        exact ih (loopStep asm entries s) hinv' (by omega)

/-! ## Preservation of consistency by the registration API -/

theorem isSome_of_not_isNone {β : Type} {o : Option β} (h : ¬ o.isNone = true) :
    o.isSome := by
  cases o with
  | none => simp at h
  | some v => rfl

theorem consistent_empty : Consistent DAGAssembly.empty := by
  refine ⟨?_, ?_, ?_, ?_, ?_, ?_⟩ <;> simp [DAGAssembly.empty, DAGAssembly.ids]

theorem add_agent_ok {asm : DAGAssembly} {aid : String} {ag : Agent} {asm' : DAGAssembly}
    (h : asm.add_agent aid ag = .ok asm') :
    aid ∉ asm.ids ∧ asm' = { asm with agents := asm.agents ++ [(aid, ag)] } := by
  unfold DAGAssembly.add_agent at h
  by_cases hs : (List.lookup aid asm.agents).isSome
  · rw [if_pos hs] at h
    simp at h
  · rw [if_neg hs] at h
    simp at h
    exact ⟨fun hmem => hs ((lookup_isSome_iff _ _).mpr hmem), h.symm⟩

theorem consistent_add_agent {asm asm' : DAGAssembly} {aid : String} {ag : Agent}
    (h : asm.add_agent aid ag = .ok asm') (hC : Consistent asm) : Consistent asm' := by
  obtain ⟨hfresh, heq⟩ := add_agent_ok h
  subst heq
  have hids : ({ asm with agents := asm.agents ++ [(aid, ag)] } : DAGAssembly).ids
      = asm.ids ++ [aid] := by
    simp [DAGAssembly.ids]
  refine ⟨?_, hC.nodup_succs, hC.nodup_parents, ?_, hC.conv, hC.deg⟩
  · rw [hids, List.nodup_append]
    exact ⟨hC.nodup_ids, by simp, by intro a ha hb; simp at hb; exact hfresh (hb ▸ ha)⟩
  · intro a b hb
    have := hC.edge_mem a b hb
    rw [hids]
    exact ⟨List.mem_append.mpr (Or.inl this.1), List.mem_append.mpr (Or.inl this.2)⟩

/-- Consistency of the committed-edge state, independently of the
validator verdict. -/
theorem consistent_insertEdge {asm : DAGAssembly} (hC : Consistent asm) {f t : String}
    (hfid : f ∈ asm.ids) (htid : t ∈ asm.ids) (hnew : t ∉ asm.graph f) :
    Consistent (insertEdge asm f t) := by
  have hfnp : f ∉ asm.parents_map t := fun hmem => hnew ((hC.conv f t).mpr hmem)
  refine ⟨by simpa using hC.nodup_ids, ?_, ?_, ?_, ?_, ?_⟩
  · intro a
    rw [insertEdge_graph]
    by_cases ha : a = f
    · subst ha
      rw [if_pos rfl, List.nodup_append]
      exact ⟨hC.nodup_succs a, by simp, by intro x hx hb; simp at hb; exact hnew (hb ▸ hx)⟩
    · rw [if_neg ha]
      exact hC.nodup_succs a
  · intro a
    rw [insertEdge_parents]
    by_cases ha : a = t
    · subst ha
      rw [if_pos rfl, List.nodup_append]
      exact ⟨hC.nodup_parents a, by simp,
        by intro x hx hb; simp at hb; exact hfnp (hb ▸ hx)⟩
    · rw [if_neg ha]
      exact hC.nodup_parents a
  · intro a b hb
    rw [insertEdge_graph] at hb
    rw [insertEdge_ids]
    by_cases ha : a = f
    · subst ha
      rw [if_pos rfl] at hb
      rcases List.mem_append.mp hb with h | h
      · exact hC.edge_mem a b h
      · simp at h
        exact ⟨hfid, h ▸ htid⟩
    · rw [if_neg ha] at hb
      exact hC.edge_mem a b hb
  · intro a b
    rw [insertEdge_graph, insertEdge_parents]
    by_cases ha : a = f <;> by_cases hbt : b = t
    · subst ha; subst hbt
      rw [if_pos rfl, if_pos rfl]
      simp only [List.mem_append, List.mem_singleton]
      constructor
      · rintro (h | h)
        · exact Or.inl ((hC.conv a b).mp h)
        · exact Or.inr h
      · rintro (h | h)
        · exact Or.inl ((hC.conv a b).mpr h)
        · exact Or.inr h
    · subst ha
      rw [if_pos rfl, if_neg hbt]
      simp only [List.mem_append, List.mem_singleton]
      constructor
      · rintro (h | h)
        · exact (hC.conv a b).mp h
        · exact absurd h hbt
      · intro h
        exact Or.inl ((hC.conv a b).mpr h)
    · subst hbt
      rw [if_neg ha, if_pos rfl]
      simp only [List.mem_append, List.mem_singleton]
      constructor
      · intro h
        exact Or.inl ((hC.conv a b).mp h)
      · rintro (h | h)
        · exact (hC.conv a b).mpr h
        · exact absurd h ha
    · rw [if_neg ha, if_neg hbt]
      exact hC.conv a b
  · intro a
    rw [insertEdge_in_degree, insertEdge_parents]
    by_cases ha : a = t
    · subst ha
      rw [if_pos rfl, if_pos rfl, hC.deg a]
      simp
    · rw [if_neg ha, if_neg ha]
      exact hC.deg a

/-- Every branch of `add_connection` leaves the graph structures
mutually consistent — including the branch that commits an edge the
validator then rejects. -/
theorem consistent_add_connection {asm : DAGAssembly} (hC : Consistent asm) (f t : String) :
    Consistent (asm.add_connection f t).1 := by
  unfold DAGAssembly.add_connection
  by_cases h1 : (List.lookup f asm.agents).isNone
  · rw [if_pos h1]
    exact hC
  · rw [if_neg h1]
    by_cases h2 : (List.lookup t asm.agents).isNone
    · rw [if_pos h2]
      exact hC
    · rw [if_neg h2]
      by_cases h3 : t ∈ asm.graph f
      · rw [if_pos h3]
        exact hC
      · rw [if_neg h3]
        exact consistent_insertEdge hC
          ((lookup_isSome_iff _ _).mp (isSome_of_not_isNone h1))
          ((lookup_isSome_iff _ _).mp (isSome_of_not_isNone h2)) h3

/-! ## `add_connection` branch characterizations -/

theorem not_isNone_of_mem {β : Type} {l : List (String × β)} {k : String}
    (h : k ∈ l.map Prod.fst) : ¬ (List.lookup k l).isNone = true := by
  have hs := (lookup_isSome_iff l k).mpr h
  cases hl : List.lookup k l with
  | none => rw [hl] at hs; simp at hs
  | some v => simp

/-- A new edge between registered agents: commit, then validate. -/
theorem add_connection_insert {asm : DAGAssembly} {f t : String}
    (hf : f ∈ asm.ids) (ht : t ∈ asm.ids) (hnew : t ∉ asm.graph f) :
    asm.add_connection f t
      = (insertEdge asm f t, (insertEdge asm f t).validate_no_cycles) := by
  unfold DAGAssembly.add_connection
  rw [if_neg (not_isNone_of_mem hf), if_neg (not_isNone_of_mem ht), if_neg hnew]

/-- A duplicate edge between registered agents: complete no-op. -/
theorem add_connection_dup {asm : DAGAssembly} {f t : String}
    (hf : f ∈ asm.ids) (ht : t ∈ asm.ids) (hdup : t ∈ asm.graph f) :
    asm.add_connection f t = (asm, Option.none) := by
  unfold DAGAssembly.add_connection
  rw [if_neg (not_isNone_of_mem hf), if_neg (not_isNone_of_mem ht), if_pos hdup]

/-! ## Input-assembly characterization -/

theorem foldl_inputs_eq (st : DataTransit) (l : List String) (acc : List PyVal) :
    l.foldl (fun acc p =>
        if st.outputsGet p = PyVal.none then acc else acc ++ [st.outputsGet p]) acc
      = acc ++ l.filterMap (fun p =>
          if st.outputsGet p = PyVal.none then Option.none else some (st.outputsGet p)) := by
  induction l generalizing acc with
  | nil => simp
  | cons p rest ih =>
      simp only [List.foldl_cons, List.filterMap_cons]
      by_cases hp : st.outputsGet p = PyVal.none
      · rw [if_pos hp, if_pos hp, ih]
      · rw [if_neg hp, if_neg hp, ih]
        simp

theorem assembleInputs_eq (parents : String → List String) (st : DataTransit)
    (aid : String) (user_data : PyVal) :
    assembleInputs parents st aid user_data
      = (parents aid).filterMap (fun p =>
          if st.outputsGet p = PyVal.none then Option.none else some (st.outputsGet p))
        ++ (if user_data = PyVal.none then [] else [user_data]) := by
  unfold assembleInputs
  rw [foldl_inputs_eq]
  by_cases hu : user_data = PyVal.none
  · rw [if_pos hu, if_pos hu]
    simp
  · rw [if_neg hu, if_neg hu]
    simp

/-! ## Claim theorems: registration and input assembly -/

/-- C3: adding `A→B` then `B→C` succeeds and adding `C→A` raises
`CycleDetected` (the `ValueError` with message `cycleMsg`) at that third
insertion; in general the validator raises exactly when the Kahn worklist
run on a snapshot of the predecessor counts visits fewer agents than are
registered. -/
theorem C3_cycle_detected_on_third_edge :
    (∀ asm : DAGAssembly, asm.validate_no_cycles = some cycleMsg ↔
        kahnLoop asm.graph asm.agents.length asm.entrySet asm.in_degree 0
          < asm.agents.length)
    ∧ (asmABC0.add_connection "A" "B").2 = Option.none
    ∧ (asmAB.add_connection "B" "C").2 = Option.none
    ∧ (asmABBC.add_connection "C" "A").2 = some cycleMsg := by
  refine ⟨?_, by decide, by decide, by decide⟩
  intro asm
  by_cases h : kahnLoop asm.graph asm.agents.length asm.entrySet asm.in_degree 0
      < asm.agents.length
  · simp [DAGAssembly.validate_no_cycles, h]
  · simp [DAGAssembly.validate_no_cycles, h]

/-- C4: a fresh edge between registered agents is committed to the
successor set, the predecessor set and the predecessor count *before*
validation, and the raised verdict is exactly the validator's verdict on
the already-mutated state — nothing is rolled back on `CycleDetected`. -/
theorem C4_edge_committed_not_rolled_back (asm : DAGAssembly) (f t : String)
    (hf : f ∈ asm.ids) (ht : t ∈ asm.ids) (hnew : t ∉ asm.graph f) :
    t ∈ (asm.add_connection f t).1.graph f
    ∧ f ∈ (asm.add_connection f t).1.parents_map t
    ∧ (asm.add_connection f t).1.in_degree t = asm.in_degree t + 1
    ∧ (asm.add_connection f t).2 = (insertEdge asm f t).validate_no_cycles := by
  rw [add_connection_insert hf ht hnew]
  refine ⟨?_, ?_, ?_, rfl⟩
  · show t ∈ (insertEdge asm f t).graph f
    rw [insertEdge_graph, if_pos rfl]
    simp
  · show f ∈ (insertEdge asm f t).parents_map t
    rw [insertEdge_parents, if_pos rfl]
    simp
  · show (insertEdge asm f t).in_degree t = asm.in_degree t + 1
    rw [insertEdge_in_degree, if_pos rfl]

/-- Witness for C4 at the concrete cycle-closing edge `C→A` on the
`A→B→C` chain: the edge is present in every structure after the call,
and the call's verdict is the committed state's (failing) validation. -/
theorem C4_witness :
    ("A" ∈ (asmABBC.add_connection "C" "A").1.graph "C"
      ∧ "C" ∈ (asmABBC.add_connection "C" "A").1.parents_map "A"
      ∧ (asmABBC.add_connection "C" "A").1.in_degree "A" = asmABBC.in_degree "A" + 1
      ∧ (asmABBC.add_connection "C" "A").2 = (insertEdge asmABBC "C" "A").validate_no_cycles)
    ∧ (asmABBC.add_connection "C" "A").2 = some cycleMsg :=
  ⟨C4_edge_committed_not_rolled_back asmABBC "C" "A" (by decide) (by decide) (by decide),
    by decide⟩

/-- C5: the input list of an agent about to run is the predecessor
outputs in predecessor-set iteration order with absent (`dict.get` =
`None`) outputs skipped, followed by the caller's seed when one is
present; an entry agent with no seed and no predecessors gets `[]`. -/
theorem C5_input_assembly (parents : String → List String) (st : DataTransit)
    (aid : String) (user_data : PyVal) :
    (assembleInputs parents st aid user_data
        = (parents aid).filterMap (fun p =>
            if st.outputsGet p = PyVal.none then Option.none else some (st.outputsGet p))
          ++ (if user_data = PyVal.none then [] else [user_data]))
    ∧ (user_data ≠ PyVal.none →
        assembleInputs parents st aid user_data
          = (parents aid).filterMap (fun p =>
              if st.outputsGet p = PyVal.none then Option.none else some (st.outputsGet p))
            ++ [user_data])
    ∧ ((parents aid = [] ∧ user_data = PyVal.none) →
        assembleInputs parents st aid user_data = []) := by
  refine ⟨assembleInputs_eq parents st aid user_data, ?_, ?_⟩
  · intro hu
    rw [assembleInputs_eq, if_neg hu]
  · rintro ⟨h1, h2⟩
    rw [assembleInputs_eq, h1, if_pos h2]
    simp

theorem C5_witness :
    assembleInputs (fun _ => []) DataTransit.empty "X" PyVal.none = []
    ∧ assembleInputs (fun _ => []) DataTransit.empty "X" (PyVal.int 7) = [PyVal.int 7] := by
  have h1 := C5_input_assembly (fun _ => []) DataTransit.empty "X" PyVal.none
  have h2 := C5_input_assembly (fun _ => []) DataTransit.empty "X" (PyVal.int 7)
  refine ⟨h1.2.2 ⟨rfl, rfl⟩, ?_⟩
  rw [h2.2.1 (by decide)]
  rfl

/-- C8: `add_connection` on a present edge is a complete no-op (state
unchanged, no exception, no validator run); only an absent edge commits
a mutation and triggers the validator. -/
theorem C8_duplicate_edge_noop (asm : DAGAssembly) (f t : String)
    (hf : f ∈ asm.ids) (ht : t ∈ asm.ids) :
    (t ∈ asm.graph f → asm.add_connection f t = (asm, Option.none))
    ∧ (t ∉ asm.graph f → asm.add_connection f t
        = (insertEdge asm f t, (insertEdge asm f t).validate_no_cycles)) :=
  ⟨fun hdup => add_connection_dup hf ht hdup,
   fun hnew => add_connection_insert hf ht hnew⟩

theorem C8_witness :
    asmABBC.add_connection "A" "B" = (asmABBC, Option.none) :=
  (C8_duplicate_edge_noop asmABBC "A" "B" (by decide) (by decide)).1 (by decide)

/-- C10: during input assembly a predecessor whose recorded output is the
value `None` contributes nothing — exactly as if no output were recorded
for it at all — and no assembled input list ever contains `None`. -/
theorem C10_none_output_like_absent :
    (∀ (parents : String → List String) (st : DataTransit) (aid : String)
        (user_data : PyVal),
      PyVal.none ∉ assembleInputs parents st aid user_data)
    ∧ (∀ (parents : String → List String) (st : DataTransit) (aid p : String)
        (user_data : PyVal),
        st.outputs p = some PyVal.none →
        assembleInputs parents st aid user_data
          = assembleInputs parents
              { st with outputs := fun x => if x = p then Option.none else st.outputs x }
              aid user_data) := by
  constructor
  · intro parents st aid user_data hmem
    rw [assembleInputs_eq] at hmem
    rcases List.mem_append.mp hmem with h | h
    · obtain ⟨q, hq, heq⟩ := List.mem_filterMap.mp h
      by_cases hc : st.outputsGet q = PyVal.none
      · rw [if_pos hc] at heq
        simp at heq
      · rw [if_neg hc] at heq
        simp at heq
        exact hc heq
    · by_cases hu : user_data = PyVal.none
      · rw [if_pos hu] at h
        simp at h
      · rw [if_neg hu] at h
        simp at h
        exact hu h.symm
  · intro parents st aid p user_data hp
    have hpt : ∀ q, DataTransit.outputsGet
        { st with outputs := fun x => if x = p then Option.none else st.outputs x } q
          = st.outputsGet q := by
      intro q
      by_cases hq : q = p
      · subst hq
        simp [DataTransit.outputsGet, hp]
      · simp [DataTransit.outputsGet, hq]
    rw [assembleInputs_eq, assembleInputs_eq]
    simp only [hpt]

theorem C10_witness :
    assembleInputs (fun x => if x = "B" then ["A"] else [])
        (DataTransit.empty.record_output "A" PyVal.none) "B" PyVal.none
      = assembleInputs (fun x => if x = "B" then ["A"] else [])
          { DataTransit.empty.record_output "A" PyVal.none with
            outputs := fun x => if x = "A" then Option.none
              else (DataTransit.empty.record_output "A" PyVal.none).outputs x }
          "B" PyVal.none
    ∧ PyVal.none ∉ assembleInputs (fun x => if x = "B" then ["A"] else [])
        (DataTransit.empty.record_output "A" PyVal.none) "B" PyVal.none :=
  ⟨C10_none_output_like_absent.2 _ _ "B" "A" PyVal.none (by decide),
   C10_none_output_like_absent.1 _ _ "B" PyVal.none⟩

/-! ## Claim theorems: who writes the outputs entry (C6) -/

/-- C6 counterexample: the claim says agent implementations never write
the store's `outputs` entry themselves.  In the source it is
`FunctionAgent.run` (and `LLMAgent.run`) that calls `record_output`:
running a concrete `FunctionAgent` on an empty store writes its own
outputs entry. -/
theorem C6_counterexample :
    DataTransit.empty.outputs "A" = Option.none
    ∧ ((Agent.functionAgent fcReturnFive).runImpl "A" DataTransit.empty []).1.outputs "A"
        = some (PyVal.int 5) :=
  ⟨rfl, by decide⟩

/-- C6 amended: the `outputs` entry for an agent is written by that
agent's own `run` implementation — both `FunctionAgent.run` and
`LLMAgent.run` record exactly the result they return, and touch no other
agent's entry — while the scheduler performs no output write of its own:
the store after the scheduler's per-task body is exactly the store
`agent.run` returned. -/
theorem C6_outputs_written_by_agent_run :
    (∀ (cfg : FunctionConfig) (aid : String) (st : DataTransit) (input_data : List PyVal)
        (v : PyVal),
      ((Agent.functionAgent cfg).runImpl aid st input_data).2 = .ok v →
      ((Agent.functionAgent cfg).runImpl aid st input_data).1.outputs aid = some v)
    ∧ (∀ (cfg : LLMConfig) (oracle : LLMOracle) (aid : String) (st : DataTransit)
        (input_data : List PyVal) (v : PyVal),
      ((Agent.llmAgent cfg oracle).runImpl aid st input_data).2 = .ok v →
      ((Agent.llmAgent cfg oracle).runImpl aid st input_data).1.outputs aid = some v)
    ∧ (∀ (a : Agent) (aid : String) (st : DataTransit) (input_data : List PyVal) (x : String),
      x ≠ aid → (a.runImpl aid st input_data).1.outputs x = st.outputs x)
    ∧ (∀ (asm : DAGAssembly) (aid : String) (ud : PyVal) (st : DataTransit) (ag : Agent),
      List.lookup aid asm.agents = some ag →
      runAgentStep asm aid ud st
        = ag.runImpl aid st (assembleInputs asm.parents_map st aid ud)) := by
  refine ⟨?_, ?_, ?_, ?_⟩
  · intro cfg aid st input_data v h
    exact runImpl_ok_outputs h
  · intro cfg oracle aid st input_data v h
    exact runImpl_ok_outputs h
  · intro a aid st input_data x hx
    exact runImpl_outputs_frame a aid st input_data x hx
  · intro asm aid ud st ag h
    simp [runAgentStep, h]

theorem C6_witness :
    ((Agent.functionAgent fcReturnFive).runImpl "B" DataTransit.empty []).1.outputs "B"
      = some (PyVal.int 5)
    ∧ ((Agent.functionAgent fcReturnFive).runImpl "B" DataTransit.empty []).1.outputs "X"
      = DataTransit.empty.outputs "X" :=
  ⟨C6_outputs_written_by_agent_run.1 fcReturnFive "B" DataTransit.empty [] (PyVal.int 5)
      rfl,
   C6_outputs_written_by_agent_run.2.2.1 (Agent.functionAgent fcReturnFive) "B"
      DataTransit.empty [] "X" (by decide)⟩

/-! ## Claim theorems: the scheduler (C1, C2, C7) -/

theorem constFnAgent_alwaysOk (w : PyVal) : (constFnAgent w).alwaysOk := by
  intro aid st input_data
  exact ⟨w, rfl⟩

theorem consistent_getOk_add_agent {asm : DAGAssembly} {aid : String} {ag : Agent}
    (hfresh : aid ∉ asm.ids) (hC : Consistent asm) :
    Consistent (getOk (asm.add_agent aid ag)) := by
  have hn : ¬ (List.lookup aid asm.agents).isSome = true := by
    intro hs
    exact hfresh ((lookup_isSome_iff _ _).mp hs)
  have h : asm.add_agent aid ag = .ok { asm with agents := asm.agents ++ [(aid, ag)] } := by
    unfold DAGAssembly.add_agent
    rw [if_neg hn]
  rw [h]
  exact consistent_add_agent h hC

theorem consistent_asmABC0 : Consistent asmABC0 :=
  consistent_getOk_add_agent (by decide)
    (consistent_getOk_add_agent (by decide)
      (consistent_getOk_add_agent (by decide) consistent_empty))

theorem consistent_asmAB : Consistent asmAB :=
  consistent_add_connection consistent_asmABC0 "A" "B"

theorem consistent_asmABBC : Consistent asmABBC :=
  consistent_add_connection consistent_asmAB "B" "C"

theorem asmAB_eq : asmAB = insertEdge asmABC0 "A" "B" := by
  show (asmABC0.add_connection "A" "B").1 = _
  rw [add_connection_insert (by decide) (by decide) (by decide)]

theorem asmABBC_eq : asmABBC = insertEdge asmAB "B" "C" := by
  show (asmAB.add_connection "B" "C").1 = _
  rw [add_connection_insert (by decide) (by decide) (by decide)]

theorem acyclic_asmABBC : Acyclic asmABBC := by
  refine ⟨fun x => if x = "A" then 0 else if x = "B" then 1 else 2, ?_⟩
  intro a b hb
  rw [asmABBC_eq, insertEdge_graph] at hb
  by_cases haB : a = "B"
  · subst haB
    rw [if_pos rfl] at hb
    have hg : asmAB.graph "B" = [] := by decide
    rw [hg] at hb
    simp at hb
    subst hb
    decide
  · rw [if_neg haB] at hb
    rw [asmAB_eq, insertEdge_graph] at hb
    by_cases haA : a = "A"
    · subst haA
      rw [if_pos rfl] at hb
      have hg : asmABC0.graph "A" = [] := rfl
      rw [hg] at hb
      simp at hb
      subst hb
      decide
    · rw [if_neg haA] at hb
      have hg : asmABC0.graph a = [] := rfl
      rw [hg] at hb
      simp at hb

theorem ok_asmABBC : ∀ p ∈ asmABBC.agents, Agent.alwaysOk p.2 := by
  intro p hp
  have hag : asmABBC.agents
      = [("A", constFnAgent (PyVal.int 1)), ("B", constFnAgent (PyVal.int 2)),
         ("C", constFnAgent (PyVal.int 3))] := rfl
  rw [hag] at hp
  simp at hp
  rcases hp with h | h | h <;> (subst h; exact constFnAgent_alwaysOk _)

/-- C1: refuted by evaluating the embedded code on the synchronous chain
`A → B → C → D` (`asmChain4`) with empty entry seeds.  `run()` gathers
only the snapshot of entry tasks — here just `A`'s — so its gather future
resolves once `A`'s task completes, and the call returns (`returnInfo`
gets set) after only `A`, `B` and `C` have been invoked: `D` is a
registered agent whose task is first stepped in event-loop iterations
scheduled after `run()` has already returned.  This falsifies the claim
that a call to `run()` completes only after every registered agent's
`run` has been invoked. -/
theorem C1_run_returns_before_transitive_tasks :
    "D" ∈ asmChain4.ids
    ∧ (asmChain4.runCall []).returnInfo = some (["A", "B", "C"], Option.none)
    ∧ "D" ∉ (["A", "B", "C"] : List String)
    ∧ (asmChain4.runCall []).executed = ["A", "B", "C", "D"] :=
  ⟨by decide, by decide, by decide, by decide⟩

/-- C2: refuted by evaluating the embedded code on `asmFail` (edge
`A → B`, `A` succeeds, the non-entry successor `B` always raises
`"boom"`) with empty entry seeds.  `run()` awaits only `A`'s task; `B`'s
task is spawned but never awaited by anything, so the exception it raises
stays in the task object (`taskErrors`) and is never retrieved, the
gather future resolves normally, and the `run()` call returns with
verdict `Option.none` instead of failing with `"boom"`.  (`A`'s recorded
output does persist in the store — that part of the claim holds — but the
claimed propagation of `B`'s exception out of `run()` is false of the
code.) -/
theorem C2_successor_failure_swallowed :
    (asmFail.runCall []).returnInfo = some (["A", "B"], Option.none)
    ∧ (asmFail.runCall []).taskErrors = [("B", "boom")]
    ∧ ((asmFail.runCall []).store.outputs "A").isSome = true :=
  ⟨by decide, by decide, by decide⟩

/-- C7: a run consumes the shared predecessor counts permanently.  On a
consistent acyclic assembly whose agents all succeed, once the event loop
has processed every task the run spawned — a run that executes every
registered agent, each exactly once — every agent's stored count is 0 and
nothing ever restores it, so on the resulting object the entry set a
second `run()` would spawn from is the whole agent list: every agent
would be treated as an entry agent instead of being scheduled by the
original topology.  (The `run()` call itself can return before this
drained state is reached — see C1 — so the post-drain object is the state
after a run in which every agent did execute.) -/
theorem C7_counts_consumed_by_complete_run (asm : DAGAssembly) (hC : Consistent asm)
    (hA : Acyclic asm) (hok : ∀ p ∈ asm.agents, Agent.alwaysOk p.2)
    (entry_inputs : List (String × PyVal)) :
    (∀ a ∈ asm.ids, (asm.runCall entry_inputs).executed.count a = 1)
    ∧ (∀ a, a ∉ asm.ids → (asm.runCall entry_inputs).executed.count a = 0)
    ∧ (∀ a, (asm.afterCompleteRun entry_inputs).in_degree a = 0)
    ∧ (asm.afterCompleteRun entry_inputs).ids = asm.ids
    ∧ (asm.afterCompleteRun entry_inputs).entrySet
        = (asm.afterCompleteRun entry_inputs).ids := by
  have hinit : LoopInv asm
      { queue := asm.entrySet.map (fun a => LoopItem.taskStep a (dictGet entry_inputs a)),
        indeg := asm.in_degree,
        store := asm.data_transit,
        executed := [],
        taskErrors := [],
        pendingEntry := asm.entrySet,
        resolved := false,
        gatherVerdict := Option.none,
        returnInfo := if asm.entrySet.isEmpty then some ([], Option.none)
          else Option.none } := by
    constructor
    · show KahnInv asm []
        (taskIds (asm.entrySet.map fun a => LoopItem.taskStep a (dictGet entry_inputs a)))
        asm.in_degree
      rw [taskIds_entry_queue]
      exact kahnInv_init hC
    · intro a ha
      simp at ha
  have hm : loopMeasure asm.ids.length
      { queue := asm.entrySet.map (fun a => LoopItem.taskStep a (dictGet entry_inputs a)),
        indeg := asm.in_degree,
        store := asm.data_transit,
        executed := [],
        taskErrors := [],
        pendingEntry := asm.entrySet,
        resolved := false,
        gatherVerdict := Option.none,
        returnInfo := if asm.entrySet.isEmpty then some ([], Option.none)
          else Option.none }
      ≤ 4 * asm.ids.length + 4 := by
    show 4 * (asm.ids.length - ([] : List String).length)
        + 2 * gcbCount (asm.entrySet.map fun a => LoopItem.taskStep a (dictGet entry_inputs a))
        + resumeCount (asm.entrySet.map fun a => LoopItem.taskStep a (dictGet entry_inputs a))
        ≤ 4 * asm.ids.length + 4
    rw [gcbCount_entry_queue, resumeCount_entry_queue]
    simp only [List.length_nil]
    omega
  have h := runEventLoop_drains hC hA hok asm.entrySet (4 * asm.ids.length + 4)
      { queue := asm.entrySet.map (fun a => LoopItem.taskStep a (dictGet entry_inputs a)),
        indeg := asm.in_degree,
        store := asm.data_transit,
        executed := [],
        taskErrors := [],
        pendingEntry := asm.entrySet,
        resolved := false,
        gatherVerdict := Option.none,
        returnInfo := if asm.entrySet.isEmpty then some ([], Option.none)
          else Option.none } hinit hm
  have hqe : (asm.runCall entry_inputs).queue = [] := h.1
  have hfin : LoopInv asm (asm.runCall entry_inputs) := h.2
  have kfin : KahnInv asm (asm.runCall entry_inputs).executed []
      (asm.runCall entry_inputs).indeg := by
    have hk := hfin.kinv
    rw [hqe] at hk
    exact hk
  have hall := kahnInv_exhausted hC hA kfin
  have hnd : (asm.runCall entry_inputs).executed.Nodup := (List.nodup_append.mp kfin.nd).1
  have hdeg : ∀ a, (asm.runCall entry_inputs).indeg a = 0 :=
    kahnInv_final_indeg hC kfin hall
  refine ⟨?_, ?_, hdeg, rfl, ?_⟩
  · intro a ha
    exact List.count_eq_one_of_mem hnd (hall a ha)
  · intro a ha
    exact List.count_eq_zero.mpr (fun hmem => ha (kfin.sub_p a hmem))
  · show (asm.afterCompleteRun entry_inputs).ids.filter
        (fun a => (asm.afterCompleteRun entry_inputs).in_degree a == 0)
      = (asm.afterCompleteRun entry_inputs).ids
    apply List.filter_eq_self.mpr
    intro a _
    have hz := hdeg a
    show ((asm.runCall entry_inputs).indeg a == 0) = true
    simp [hz]

theorem C7_witness :
    (asmABBC.runCall []).executed.count "A" = 1
    ∧ (asmABBC.runCall []).executed.count "B" = 1
    ∧ (asmABBC.runCall []).executed.count "C" = 1
    ∧ (asmABBC.runCall []).executed.count "D" = 0
    ∧ (asmABBC.afterCompleteRun []).in_degree "B" = 0
    ∧ (asmABBC.afterCompleteRun []).in_degree "C" = 0
    ∧ (asmABBC.afterCompleteRun []).entrySet = (asmABBC.afterCompleteRun []).ids := by
  have h := C7_counts_consumed_by_complete_run asmABBC consistent_asmABBC
    acyclic_asmABBC ok_asmABBC []
  exact ⟨h.1 "A" (by decide), h.1 "B" (by decide), h.1 "C" (by decide),
    h.2.1 "D" (by decide), h.2.2.1 "B", h.2.2.1 "C", h.2.2.2.2⟩

/-! ## Reconstruction: edge-list bookkeeping -/

theorem exceptBind_ok {α β : Type} (a : α) (f : α → Except String β) :
    ((Except.ok a : Except String α) >>= f) = f a := rfl

theorem mem_edgesTo {es : List (String × String)} {f t : String} :
    t ∈ edgesTo es f ↔ (f, t) ∈ es := by
  unfold edgesTo
  simp only [List.mem_map, List.mem_filter]
  constructor
  · rintro ⟨⟨e1, e2⟩, ⟨he, hf⟩, ht⟩
    simp at hf ht
    subst hf
    subst ht
    exact he
  · intro h
    exact ⟨(f, t), ⟨h, by simp⟩, rfl⟩

theorem mem_edgesFrom {es : List (String × String)} {f t : String} :
    f ∈ edgesFrom es t ↔ (f, t) ∈ es := by
  unfold edgesFrom
  simp only [List.mem_map, List.mem_filter]
  constructor
  · rintro ⟨⟨e1, e2⟩, ⟨he, ht⟩, hf⟩
    simp at hf ht
    subst hf
    subst ht
    exact he
  · intro h
    exact ⟨(f, t), ⟨h, by simp⟩, rfl⟩

theorem edgesTo_append (es1 es2 : List (String × String)) (f : String) :
    edgesTo (es1 ++ es2) f = edgesTo es1 f ++ edgesTo es2 f := by
  simp [edgesTo]

theorem edgesFrom_append (es1 es2 : List (String × String)) (t : String) :
    edgesFrom (es1 ++ es2) t = edgesFrom es1 t ++ edgesFrom es2 t := by
  simp [edgesFrom]

theorem edgesTo_nodup {es : List (String × String)} (h : es.Nodup) (f : String) :
    (edgesTo es f).Nodup := by
  unfold edgesTo
  apply List.Nodup.map_on
  · rintro ⟨x1, x2⟩ hx ⟨y1, y2⟩ hy hxy
    rw [List.mem_filter] at hx hy
    have hx2 := hx.2
    have hy2 := hy.2
    simp at hx2 hy2 hxy
    simp [hx2, hy2, hxy]
  · exact h.filter _

theorem edgesFrom_nodup {es : List (String × String)} (h : es.Nodup) (t : String) :
    (edgesFrom es t).Nodup := by
  unfold edgesFrom
  apply List.Nodup.map_on
  · rintro ⟨x1, x2⟩ hx ⟨y1, y2⟩ hy hxy
    rw [List.mem_filter] at hx hy
    have hx2 := hx.2
    have hy2 := hy.2
    simp at hx2 hy2 hxy
    simp [hx2, hy2, hxy]
  · exact h.filter _

theorem connsOf_nodup_aux (graph : String → List String) :
    ∀ ps : List (String × Agent), (ps.map Prod.fst).Nodup →
      (∀ p ∈ ps, (graph p.1).Nodup) →
      (ps.flatMap (fun p => (graph p.1).map (fun t => (p.1, t)))).Nodup := by
  intro ps
  induction ps with
  | nil => intro _ _; simp
  | cons p rest ih =>
      intro hnd hg
      rw [List.flatMap_cons, List.nodup_append]
      have hhead : p.1 ∉ rest.map Prod.fst := by
        have := hnd
        rw [List.map_cons, List.nodup_cons] at this
        exact this.1
      refine ⟨?_, ih (by rw [List.map_cons, List.nodup_cons] at hnd; exact hnd.2)
        (fun q hq => hg q (List.mem_cons_of_mem p hq)), ?_⟩
      · apply List.Nodup.map_on
        · intro x _ y _ hxy
          simp at hxy
          exact hxy
        · exact hg p (List.mem_cons_self p rest)
      · rintro ⟨a1, a2⟩ ha hb
        rw [List.mem_map] at ha
        obtain ⟨t, _, ht⟩ := ha
        rw [List.mem_flatMap] at hb
        obtain ⟨q, hq, hb2⟩ := hb
        rw [List.mem_map] at hb2
        obtain ⟨t', _, ht'⟩ := hb2
        have h1 : p.1 = a1 := congrArg Prod.fst ht
        have h2 : q.1 = a1 := congrArg Prod.fst ht'
        apply hhead
        rw [h1, ← h2]
        exact List.mem_map.mpr ⟨q, hq, rfl⟩

theorem mem_connsOf {asm : DAGAssembly} {f t : String} :
    (f, t) ∈ connsOf asm ↔ f ∈ asm.ids ∧ t ∈ asm.graph f := by
  unfold connsOf
  rw [List.mem_flatMap]
  constructor
  · rintro ⟨p, hp, hmem⟩
    rw [List.mem_map] at hmem
    obtain ⟨t', ht', heq⟩ := hmem
    have h1 : p.1 = f := congrArg Prod.fst heq
    have h2 : t' = t := congrArg Prod.snd heq
    subst h2
    rw [h1] at ht'
    exact ⟨h1 ▸ List.mem_map.mpr ⟨p, hp, rfl⟩, ht'⟩
  · rintro ⟨hf, ht⟩
    rw [DAGAssembly.ids, List.mem_map] at hf
    obtain ⟨p, hp, hpf⟩ := hf
    refine ⟨p, hp, ?_⟩
    rw [List.mem_map]
    exact ⟨t, by rw [hpf]; exact ht, by rw [hpf]⟩

theorem edgesTo_flatMap (graph : String → List String) :
    ∀ (ps : List (String × Agent)) (f : String), (ps.map Prod.fst).Nodup →
      edgesTo (ps.flatMap (fun p => (graph p.1).map (fun t => (p.1, t)))) f
        = if f ∈ ps.map Prod.fst then graph f else [] := by
  intro ps
  induction ps with
  | nil => intro f _; simp [edgesTo]
  | cons p rest ih =>
      intro f hnd
      rw [List.map_cons, List.nodup_cons] at hnd
      rw [List.flatMap_cons, edgesTo_append]
      have h1 : edgesTo ((graph p.1).map (fun t => (p.1, t))) f
          = if f = p.1 then graph p.1 else [] := by
        by_cases hf : f = p.1
        · rw [if_pos hf]
          unfold edgesTo
          rw [List.filter_map]
          have : ((graph p.1).filter ((fun e => e.1 == f) ∘ fun t => (p.1, t))) = graph p.1 := by
            apply List.filter_eq_self.mpr
            intro t _
            simp [Function.comp_def, hf]
          rw [this]
          simp
        · rw [if_neg hf]
          unfold edgesTo
          rw [List.filter_map]
          have : ((graph p.1).filter ((fun e => e.1 == f) ∘ fun t => (p.1, t))) = [] := by
            apply List.filter_eq_nil_iff.mpr
            intro t _
            simp [Function.comp_def]
            intro h
            exact absurd h.symm hf
          rw [this]
          simp
      rw [h1, ih f hnd.2, List.map_cons]
      by_cases hf : f = p.1
      · have hfr : f ∉ rest.map Prod.fst := by rw [hf]; exact hnd.1
        rw [if_pos hf, if_neg hfr, if_pos (by rw [hf]; exact List.mem_cons_self _ _)]
        rw [hf]
        simp
      · rw [if_neg hf]
        by_cases hfr : f ∈ rest.map Prod.fst
        · rw [if_pos hfr, if_pos (List.mem_cons_of_mem _ hfr)]
          simp
        · rw [if_neg hfr, if_neg ?_]
          · simp
          · rw [List.mem_cons]
            rintro (h | h)
            · exact hf h
            · exact hfr h

theorem edgesTo_connsOf {asm : DAGAssembly} (hC : Consistent asm) (f : String) :
    edgesTo (connsOf asm) f = asm.graph f := by
  unfold connsOf
  rw [edgesTo_flatMap asm.graph asm.agents f hC.nodup_ids]
  by_cases hf : f ∈ asm.agents.map Prod.fst
  · rw [if_pos hf]
  · rw [if_neg hf]
    symm
    rw [List.eq_nil_iff_forall_not_mem]
    intro b hb
    exact hf (hC.edge_mem f b hb).1

theorem connsOf_nodup {asm : DAGAssembly} (hC : Consistent asm) : (connsOf asm).Nodup :=
  connsOf_nodup_aux asm.graph asm.agents hC.nodup_ids (fun p _ => hC.nodup_succs p.1)

theorem recon_consistent {asm : DAGAssembly} {done : List (String × String)}
    {s : DAGAssembly} (hC : Consistent asm) (hnd : done.Nodup)
    (hsub : ∀ e ∈ done, e.1 ∈ asm.ids ∧ e.2 ∈ asm.ids)
    (inv : ReconInv asm done s) : Consistent s := by
  refine ⟨?_, ?_, ?_, ?_, ?_, ?_⟩
  · rw [inv.ids_eq]
    exact hC.nodup_ids
  · intro a
    rw [inv.graph_eq]
    exact edgesTo_nodup hnd a
  · intro a
    rw [inv.parents_eq]
    exact edgesFrom_nodup hnd a
  · intro a b hb
    rw [inv.graph_eq] at hb
    have h2 := hsub _ (mem_edgesTo.mp hb)
    rw [inv.ids_eq]
    exact h2
  · intro a b
    rw [inv.graph_eq, inv.parents_eq, mem_edgesTo, mem_edgesFrom]
  · intro a
    rw [inv.indeg_eq, inv.parents_eq]

theorem recon_acyclic {asm : DAGAssembly} {done : List (String × String)}
    {s : DAGAssembly} (hA : Acyclic asm)
    (hsubE : ∀ e ∈ done, e.2 ∈ asm.graph e.1)
    (inv : ReconInv asm done s) : Acyclic s := by
  obtain ⟨rank, hrank⟩ := hA
  refine ⟨rank, ?_⟩
  intro a b hb
  rw [inv.graph_eq] at hb
  exact hrank a b (hsubE _ (mem_edgesTo.mp hb))

/-! ## Reconstruction: rebuilding each agent -/

theorem mkFunctionAgent_typeName
    (importFn : String → String → (List PyVal → Except String PyVal))
    (cfg : FunctionConfig) : (mkFunctionAgent importFn cfg).typeName = "FunctionAgent" := by
  unfold mkFunctionAgent
  cases cfg.func with
  | some f => rfl
  | none => cases cfg.import_path <;> cases cfg.func_name <;> rfl

theorem agentDocOf_id (asm : DAGAssembly)
    (pf : Option String → Option (List String))
    (ifn : (List PyVal → Except String PyVal) → FunctionConfigDoc)
    (aid : String) (ag : Agent) : (agentDocOf asm pf ifn aid ag).agent_id = aid := by
  cases ag <;> rfl

theorem buildAgent_of_doc {asm : DAGAssembly}
    (pf : Option String → Option (List String))
    (ifn : (List PyVal → Except String PyVal) → FunctionConfigDoc)
    (keymap : List (String × String)) (env : String → Option String)
    (imp : String → String → (List PyVal → Except String PyVal))
    (mk : LLMConfig → Option String → LLMOracle)
    (aid : String) (ag : Agent)
    (hkey : ∀ cfg orac, ag = Agent.llmAgent cfg orac →
      ∀ al, cfg.api_key_alias = some al → ∃ k, load_api_key al keymap env = .ok k) :
    ∃ ag', buildAgentFromDoc keymap env imp mk (agentDocOf asm pf ifn aid ag) = .ok ag'
      ∧ ag'.typeName = ag.typeName := by
  cases ag with
  | llmAgent cfg orac =>
      cases hal : cfg.api_key_alias with
      | none =>
          exact ⟨Agent.llmAgent cfg (mk cfg Option.none),
            by simp [buildAgentFromDoc, agentDocOf, hal], rfl⟩
      | some al =>
          obtain ⟨k, hk⟩ := hkey cfg orac rfl al hal
          exact ⟨Agent.llmAgent cfg (mk cfg (some k)),
            by simp [buildAgentFromDoc, agentDocOf, hal, hk], rfl⟩
  | functionAgent fc =>
      have hpos : (agentDocOf asm pf ifn aid (Agent.functionAgent fc)).type_tag
          = "FunctionAgent" := rfl
      have hneg : ¬ (agentDocOf asm pf ifn aid (Agent.functionAgent fc)).type_tag
          = "LLMAgent" := by rw [hpos]; decide
      rcases hbuild : buildAgentFromDoc keymap env imp mk
          (agentDocOf asm pf ifn aid (Agent.functionAgent fc)) with e | ag'
      · exfalso
        unfold buildAgentFromDoc at hbuild
        rw [if_neg hneg, if_pos hpos] at hbuild
        simp at hbuild
      · refine ⟨ag', rfl, ?_⟩
        unfold buildAgentFromDoc at hbuild
        rw [if_neg hneg, if_pos hpos] at hbuild
        simp at hbuild
        rw [← hbuild]
        exact mkFunctionAgent_typeName imp _

theorem add_agent_fresh {asm : DAGAssembly} {aid : String} (ag : Agent)
    (hfresh : aid ∉ asm.ids) :
    asm.add_agent aid ag = .ok { asm with agents := asm.agents ++ [(aid, ag)] } := by
  have hn : ¬ (List.lookup aid asm.agents).isSome = true :=
    fun hs => hfresh ((lookup_isSome_iff _ _).mp hs)
  unfold DAGAssembly.add_agent
  rw [if_neg hn]

theorem forall2_map_fst {ps bs : List (String × Agent)}
    (h : List.Forall₂ (fun p q => p.1 = q.1 ∧ q.2.typeName = p.2.typeName) ps bs) :
    bs.map Prod.fst = ps.map Prod.fst := by
  induction h with
  | nil => rfl
  | cons hpq _ ih => simp [ih, hpq.1]

theorem forall2_lookup {ps bs : List (String × Agent)}
    (h : List.Forall₂ (fun p q => p.1 = q.1 ∧ q.2.typeName = p.2.typeName) ps bs) :
    ∀ aid ag ag', List.lookup aid ps = some ag → List.lookup aid bs = some ag' →
      ag'.typeName = ag.typeName := by
  induction h with
  | nil =>
      intro aid ag ag' h1 _
      simp [List.lookup] at h1
  | @cons a b l1 l2 hab htail ih =>
      intro aid ag ag' h1 h2
      obtain ⟨a1, a2⟩ := a
      obtain ⟨b1, b2⟩ := b
      obtain ⟨hfst, htype⟩ := hab
      simp only at hfst htype
      by_cases haid : aid = a1
      · subst haid
        simp [List.lookup] at h1
        have hb : (aid == b1) = true := by rw [← hfst]; simp
        simp [List.lookup, hb] at h2
        rw [← h1, ← h2]
        exact htype
      · have hb1 : (aid == a1) = false := beq_eq_false_iff_ne.mpr haid
        have hb2 : (aid == b1) = false := beq_eq_false_iff_ne.mpr (hfst ▸ haid)
        simp [List.lookup, hb1] at h1
        simp [List.lookup, hb2] at h2
        exact ih aid ag ag' h1 h2

/-- Rebuilding the agents array: folding `add_agent` over the exported
documents succeeds and reproduces the id sequence with type tags
preserved, leaving the graph structures untouched. -/
theorem from_json_agents_fold {asm : DAGAssembly}
    (pf : Option String → Option (List String))
    (ifn : (List PyVal → Except String PyVal) → FunctionConfigDoc)
    (keymap : List (String × String)) (env : String → Option String)
    (imp : String → String → (List PyVal → Except String PyVal))
    (mk : LLMConfig → Option String → LLMOracle) :
    ∀ (ps : List (String × Agent)) (acc : DAGAssembly),
      (∀ aid cfg orac, (aid, Agent.llmAgent cfg orac) ∈ ps →
        ∀ al, cfg.api_key_alias = some al → ∃ k, load_api_key al keymap env = .ok k) →
      (∀ p ∈ ps, p.1 ∉ acc.ids) →
      (ps.map Prod.fst).Nodup →
      ∃ (acc' : DAGAssembly) (bs : List (String × Agent)),
        (ps.map (fun p => agentDocOf asm pf ifn p.1 p.2)).foldlM
            (fun acc a =>
              buildAgentFromDoc keymap env imp mk a >>= fun ag =>
                acc.add_agent a.agent_id ag)
            acc = .ok acc'
        ∧ acc'.agents = acc.agents ++ bs
        ∧ List.Forall₂ (fun p q => p.1 = q.1 ∧ q.2.typeName = p.2.typeName) ps bs
        ∧ acc'.graph = acc.graph ∧ acc'.parents_map = acc.parents_map
        ∧ acc'.in_degree = acc.in_degree := by
  intro ps
  induction ps with
  | nil =>
      intro acc _ _ _
      exact ⟨acc, [], rfl, by simp, List.Forall₂.nil, rfl, rfl, rfl⟩
  | cons p rest ih =>
      intro acc hkeys hfresh hnd
      rw [List.map_cons, List.nodup_cons] at hnd
      obtain ⟨ag', hbuild, htype⟩ := buildAgent_of_doc pf ifn keymap env imp mk p.1 p.2
        (fun cfg orac heq al hal =>
          hkeys p.1 cfg orac (by rw [← heq, Prod.mk.eta]; exact List.mem_cons_self p rest)
            al hal)
      have hadd : acc.add_agent p.1 ag'
          = .ok { acc with agents := acc.agents ++ [(p.1, ag')] } :=
        add_agent_fresh ag' (hfresh p (List.mem_cons_self p rest))
      have hfresh2 : ∀ q ∈ rest,
          q.1 ∉ ({ acc with agents := acc.agents ++ [(p.1, ag')] } : DAGAssembly).ids := by
        intro q hq hmem
        have hids : ({ acc with agents := acc.agents ++ [(p.1, ag')] } : DAGAssembly).ids
            = acc.ids ++ [p.1] := by
          simp [DAGAssembly.ids]
        rw [hids] at hmem
        rcases List.mem_append.mp hmem with h | h
        · exact hfresh q (List.mem_cons_of_mem p hq) h
        · simp at h
          exact hnd.1 (h ▸ List.mem_map.mpr ⟨q, hq, rfl⟩)
      obtain ⟨acc', bs', hfold', hagents', hfa', hg', hp', hd'⟩ :=
        ih { acc with agents := acc.agents ++ [(p.1, ag')] }
          (fun aid cfg orac hm al hal => hkeys aid cfg orac (List.mem_cons_of_mem p hm) al hal)
          hfresh2 hnd.2
      refine ⟨acc', (p.1, ag') :: bs', ?_, ?_, ?_, hg', hp', hd'⟩
      · rw [List.map_cons, List.foldlM_cons, hbuild]
        simp only [exceptBind_ok]
        rw [agentDocOf_id, hadd]
        simp only [exceptBind_ok]
        exact hfold'
      · rw [hagents']
        simp
      · exact List.Forall₂.cons ⟨rfl, htype⟩ hfa'

theorem edgesTo_single (f t x : String) :
    edgesTo [(f, t)] x = if x = f then [t] else [] := by
  unfold edgesTo
  by_cases h : x = f
  · subst h
    simp
  · have hb : (f == x) = false := beq_eq_false_iff_ne.mpr (fun he => h he.symm)
    simp [hb, h]

theorem edgesFrom_single (f t x : String) :
    edgesFrom [(f, t)] x = if x = t then [f] else [] := by
  unfold edgesFrom
  by_cases h : x = t
  · subst h
    simp
  · have hb : (t == x) = false := beq_eq_false_iff_ne.mpr (fun he => h he.symm)
    simp [hb, h]

/-- Rebuilding the edges: folding `add_connection` over the exported
connections succeeds (each intermediate graph is a subgraph of the
original acyclic graph, so the re-run validator always passes) and
reproduces exactly the original successor structures. -/
theorem from_json_conns_fold {asm : DAGAssembly} (hC : Consistent asm) (hA : Acyclic asm) :
    ∀ (todo done : List (String × String)) (s : DAGAssembly),
      connsOf asm = done ++ todo →
      ReconInv asm done s →
      ∃ s', todo.foldlM (fun acc c =>
          match acc.add_connection c.1 c.2 with
          | (_, some e) => Except.error e
          | (acc', Option.none) => Except.ok acc') s = .ok s'
        ∧ ReconInv asm (connsOf asm) s'
        ∧ s'.agents = s.agents := by
  intro todo
  induction todo with
  | nil =>
      intro done s hsplit inv
      refine ⟨s, rfl, ?_, rfl⟩
      rw [hsplit, List.append_nil]
      exact inv
  | cons e0 todo' ih =>
      intro done s hsplit inv
      obtain ⟨f, t⟩ := e0
      have hnd := connsOf_nodup hC
      rw [hsplit] at hnd
      have hmemconns : (f, t) ∈ connsOf asm := by
        rw [hsplit]
        exact List.mem_append.mpr (Or.inr (List.mem_cons_self _ _))
      obtain ⟨hfid, htg⟩ := mem_connsOf.mp hmemconns
      have htid : t ∈ asm.ids := (hC.edge_mem f t htg).2
      have hsubdone : ∀ e2 ∈ done, e2.1 ∈ asm.ids ∧ e2.2 ∈ asm.ids := by
        rintro ⟨x, y⟩ he2
        have hxy : (x, y) ∈ connsOf asm := by
          rw [hsplit]
          exact List.mem_append.mpr (Or.inl he2)
        obtain ⟨h1, h2⟩ := mem_connsOf.mp hxy
        exact ⟨h1, (hC.edge_mem x y h2).2⟩
      have hndone : done.Nodup := (List.nodup_append.mp hnd).1
      have hCs : Consistent s := recon_consistent hC hndone hsubdone inv
      have hnew : t ∉ s.graph f := by
        rw [inv.graph_eq]
        intro hmem
        exact (List.nodup_append.mp hnd).2.2 (mem_edgesTo.mp hmem) (List.mem_cons_self _ _)
      have hfs : f ∈ s.ids := by rw [inv.ids_eq]; exact hfid
      have hts : t ∈ s.ids := by rw [inv.ids_eq]; exact htid
      have hconn : s.add_connection f t
          = (insertEdge s f t, (insertEdge s f t).validate_no_cycles) :=
        add_connection_insert hfs hts hnew
      have inv' : ReconInv asm (done ++ [(f, t)]) (insertEdge s f t) := by
        refine ⟨?_, ?_, ?_, ?_⟩
        · rw [insertEdge_ids, inv.ids_eq]
        · intro x
          rw [insertEdge_graph, edgesTo_append, edgesTo_single]
          by_cases hx : x = f
          · rw [if_pos hx, if_pos hx, hx, inv.graph_eq]
          · rw [if_neg hx, if_neg hx, inv.graph_eq, List.append_nil]
        · intro x
          rw [insertEdge_parents, edgesFrom_append, edgesFrom_single]
          by_cases hx : x = t
          · rw [if_pos hx, if_pos hx, hx, inv.parents_eq]
          · rw [if_neg hx, if_neg hx, inv.parents_eq, List.append_nil]
        · intro x
          rw [insertEdge_in_degree, edgesFrom_append, edgesFrom_single]
          by_cases hx : x = t
          · rw [if_pos hx, if_pos hx, hx, List.length_append, inv.indeg_eq]
            simp
          · rw [if_neg hx, if_neg hx, inv.indeg_eq, List.append_nil]
      have hnd' : (done ++ [(f, t)]).Nodup := by
        have hre : done ++ (f, t) :: todo' = (done ++ [(f, t)]) ++ todo' := by simp
        rw [hre] at hnd
        exact hnd.of_append_left
      have hsubdone' : ∀ e2 ∈ done ++ [(f, t)], e2.1 ∈ asm.ids ∧ e2.2 ∈ asm.ids := by
        intro e2 he2
        rcases List.mem_append.mp he2 with h | h
        · exact hsubdone e2 h
        · simp at h
          rw [h]
          exact ⟨hfid, htid⟩
      have hsubE' : ∀ e2 ∈ done ++ [(f, t)], e2.2 ∈ asm.graph e2.1 := by
        rintro ⟨x, y⟩ he2
        rcases List.mem_append.mp he2 with h | h
        · have hxy : (x, y) ∈ connsOf asm := by
            rw [hsplit]
            exact List.mem_append.mpr (Or.inl h)
          exact (mem_connsOf.mp hxy).2
        · simp at h
          rw [h.1, h.2]
          exact htg
      have hCs' : Consistent (insertEdge s f t) := recon_consistent hC hnd' hsubdone' inv'
      have hAs' : Acyclic (insertEdge s f t) := recon_acyclic hA hsubE' inv'
      have hval : (insertEdge s f t).validate_no_cycles = Option.none :=
        validate_ok hCs' hAs'
      have hsplit' : connsOf asm = (done ++ [(f, t)]) ++ todo' := by
        rw [hsplit]
        simp
      obtain ⟨s', h1, h2, h3⟩ := ih (done ++ [(f, t)]) (insertEdge s f t) hsplit' inv'
      refine ⟨s', ?_, h2, by rw [h3, insertEdge_agents]⟩
      simp only [List.foldlM_cons]
      rw [hconn, hval]
      simp only [exceptBind_ok]
      exact h1

/-- C9: for any consistent acyclic assembly (of `LLMAgent`s and
`FunctionAgent`s — the only agent kinds), `from_json (export_to_json …)`
succeeds — rebuilding purely through `add_agent` / `add_connection`, as
`from_json` is defined — and reproduces the same agent-id sequence, the
same agent type per id, and the same successor sets (hence the same edge
set).  The key-resolution hypothesis mirrors `_load_api_key` finding a
key for every aliased LLM agent. -/
theorem C9_export_from_json_roundtrip (asm : DAGAssembly) (hC : Consistent asm)
    (hA : Acyclic asm)
    (promptFields : Option String → Option (List String))
    (inspectFn : (List PyVal → Except String PyVal) → FunctionConfigDoc)
    (api_key_value_map : List (String × String)) (envGet : String → Option String)
    (importFn : String → String → (List PyVal → Except String PyVal))
    (mkOracle : LLMConfig → Option String → LLMOracle)
    (hkeys : ∀ aid cfg orac, (aid, Agent.llmAgent cfg orac) ∈ asm.agents →
      ∀ al, cfg.api_key_alias = some al →
        ∃ k, load_api_key al api_key_value_map envGet = .ok k) :
    ∃ asm', DAGAssembly.from_json (asm.export_to_json promptFields inspectFn)
        api_key_value_map envGet importFn mkOracle = .ok asm'
      ∧ asm'.ids = asm.ids
      ∧ (∀ aid ag ag', List.lookup aid asm.agents = some ag →
          List.lookup aid asm'.agents = some ag' → ag'.typeName = ag.typeName)
      ∧ (∀ x, asm'.graph x = asm.graph x) := by
  obtain ⟨asm1, bs, hfold1, hagents1, hfa, hg1, hp1, hd1⟩ :=
    from_json_agents_fold promptFields inspectFn api_key_value_map envGet importFn mkOracle
      asm.agents DAGAssembly.empty hkeys
      (by intro p _ hmem; simp [DAGAssembly.empty, DAGAssembly.ids] at hmem)
      hC.nodup_ids
  have hagents1' : asm1.agents = bs := by
    rw [hagents1]
    rfl
  have hids1 : asm1.ids = asm.ids := by
    rw [DAGAssembly.ids, hagents1', forall2_map_fst hfa]
    rfl
  have hrecon1 : ReconInv asm [] asm1 := by
    refine ⟨hids1, ?_, ?_, ?_⟩
    · intro x
      rw [hg1]
      rfl
    · intro x
      rw [hp1]
      rfl
    · intro x
      rw [hd1]
      rfl
  obtain ⟨asm2, hfold2, hrecon2, hagents2⟩ :=
    from_json_conns_fold hC hA (connsOf asm) [] asm1 (by simp) hrecon1
  refine ⟨asm2, ?_, hrecon2.ids_eq, ?_, ?_⟩
  · show ((asm.export_to_json promptFields inspectFn).agents.foldlM
        (fun acc a =>
          buildAgentFromDoc api_key_value_map envGet importFn mkOracle a >>= fun ag =>
            acc.add_agent a.agent_id ag)
        DAGAssembly.empty) >>= (fun asm1 =>
        (asm.export_to_json promptFields inspectFn).connections.foldlM
          (fun acc c => match acc.add_connection c.1 c.2 with
            | (_, some e) => Except.error e
            | (acc', Option.none) => Except.ok acc') asm1) = .ok asm2
    have hexp_agents : (asm.export_to_json promptFields inspectFn).agents
        = asm.agents.map (fun p => agentDocOf asm promptFields inspectFn p.1 p.2) := rfl
    have hexp_conns : (asm.export_to_json promptFields inspectFn).connections
        = connsOf asm := rfl
    rw [hexp_agents, hexp_conns, hfold1]
    simp only [exceptBind_ok]
    exact hfold2
  · intro aid ag ag' h1 h2
    apply forall2_lookup hfa aid ag ag' h1
    rw [hagents2, hagents1'] at h2
    exact h2
  · intro x
    rw [hrecon2.graph_eq, edgesTo_connsOf hC]

theorem C9_witness :
    ((DAGAssembly.from_json
        (asmABBC.export_to_json (fun _ => Option.none)
          (fun _ => ⟨Option.none, Option.none, Option.none, Option.none, Option.none⟩))
        [] (fun _ => Option.none) (fun _ _ => fun _ => Except.ok PyVal.none)
        (fun _ _ => fun _ => Except.ok ([], PyVal.none))).toOption.map
      DAGAssembly.ids) = some ["A", "B", "C"]
    ∧ ((DAGAssembly.from_json
        (asmABBC.export_to_json (fun _ => Option.none)
          (fun _ => ⟨Option.none, Option.none, Option.none, Option.none, Option.none⟩))
        [] (fun _ => Option.none) (fun _ _ => fun _ => Except.ok PyVal.none)
        (fun _ _ => fun _ => Except.ok ([], PyVal.none))).toOption.map
      (fun a => a.graph "A")) = some ["B"]
    ∧ ((DAGAssembly.from_json
        (asmABBC.export_to_json (fun _ => Option.none)
          (fun _ => ⟨Option.none, Option.none, Option.none, Option.none, Option.none⟩))
        [] (fun _ => Option.none) (fun _ _ => fun _ => Except.ok PyVal.none)
        (fun _ _ => fun _ => Except.ok ([], PyVal.none))).toOption.map
      (fun a => a.graph "B")) = some ["C"] := by
  obtain ⟨asm', h1, h2, h3, h4⟩ := C9_export_from_json_roundtrip asmABBC consistent_asmABBC
    acyclic_asmABBC (fun _ => Option.none)
    (fun _ => ⟨Option.none, Option.none, Option.none, Option.none, Option.none⟩)
    [] (fun _ => Option.none) (fun _ _ => fun _ => Except.ok PyVal.none)
    (fun _ _ => fun _ => Except.ok ([], PyVal.none))
    (by
      intro aid cfg orac hmem al hal
      have hag : asmABBC.agents
          = [("A", constFnAgent (PyVal.int 1)), ("B", constFnAgent (PyVal.int 2)),
             ("C", constFnAgent (PyVal.int 3))] := rfl
      rw [hag] at hmem
      simp [constFnAgent] at hmem)
  rw [h1]
  refine ⟨?_, ?_, ?_⟩
  · show some asm'.ids = some ["A", "B", "C"]
    rw [h2]
    rfl
  · show some (asm'.graph "A") = some ["B"]
    rw [h4 "A"]
    decide
  · show some (asm'.graph "B") = some ["C"]
    rw [h4 "B"]
    decide
